import Mathlib

/-!
Shallow embedding of the `prioqueue` Go package (`priority_queue.go`) together
with the algorithms of Go's `container/heap` package that the code delegates to
(`heap.Push`, `heap.Pop`, `heap.Fix`, `heap.Remove`, `heap.Init` with their
`up`/`down` helpers).

Modelling choices:
* Go heap pointers `*Item[T]` are modelled by an arena: `PQ.arena` is the list
  of every item ever allocated, and a handle is the arena position (`Nat`) of
  its item.  The backing array `pq.items` stores arena ids.
* Go `int` is modelled as `Int` for the `Index`/`Priority` fields (no overflow
  is relevant to the claims); array indices are `Nat`.
* The Go loops `up` and `down` are modelled with an explicit fuel argument that
  every caller instantiates with a sufficient bound (`j+1` for `up`, `n` for
  `down`), so the definitions are structurally recursive and executable.
* The `sync.RWMutex` field only serialises concurrent access and has no
  sequential semantics, so it is not modelled.
* Out-of-range list reads use `getD` with a default; the Go code never performs
  such reads on the paths modelled here (its accesses would panic instead).
* Go's zero value for the element type `T` is modelled by `default` of an
  `Inhabited T` instance.
-/

namespace PrioQueue

/-- Go `Item[T]`: the caller's value, the integer priority, and the
queue-maintained index (`-1` once the item has been popped or removed;
zero-valued `0` at allocation before `Push` sets it). -/
structure Item (T : Type) where
  value : T
  priority : Int
  index : Int

instance (T : Type) [Inhabited T] : Inhabited (Item T) := ⟨⟨default, 0, 0⟩⟩

/-- Go `PriorityQueue[T]`: the backing array (`items`, a list of arena ids),
the arena of all allocated items, the optional custom comparator and the
min/max flag. -/
structure PQ (T : Type) where
  arena : List (Item T)
  items : List Nat
  comparator : Option (T → T → Int)
  isMaxHeap : Bool

section PureHeap

variable {K : Type} [Inhabited K]

/-- Read a list element with the `Inhabited` default (Go would index the
slice directly; all modelled reads are in range). -/
def getE (l : List K) (i : Nat) : K := l.getD i default

/-- One positional exchange of the backing array: `new[i] = old[j]`,
`new[j] = old[i]`. -/
def swapL (l : List K) (i j : Nat) : List K :=
  (l.set i (getE l j)).set j (getE l i)

variable (lt : K → K → Bool)

/-- `container/heap`'s `up` loop over a list of comparison keys: while the
element at `j` outranks its parent `(j-1)/2`, swap and continue.  `fuel ≥ j+1`
makes the fuel irrelevant. -/
def upFuel : Nat → List K → Nat → List K
  | 0, l, _ => l
  | fuel+1, l, j =>
    if j = 0 then l
    else if lt (getE l j) (getE l ((j-1)/2)) then
      upFuel fuel (swapL l ((j-1)/2) j) ((j-1)/2)
    else l

/-- `container/heap`'s `down` loop on the key list, restricted to the prefix
`[0, n)`: sink the element at `i`, always swapping with the higher-ranked
child.  Returns the final position (Go returns `i0 < i`).  `fuel ≥ n` makes
the fuel irrelevant. -/
def downFuel : Nat → List K → Nat → Nat → List K × Nat
  | 0, l, i, _ => (l, i)
  | fuel+1, l, i, n =>
    if 2*i+1 < n then
      let j := if 2*i+2 < n && lt (getE l (2*i+2)) (getE l (2*i+1)) then 2*i+2
               else 2*i+1
      if lt (getE l j) (getE l i) then downFuel fuel (swapL l i j) j n
      else (l, i)
    else (l, i)

def upL (l : List K) (j : Nat) : List K := upFuel lt (j+1) l j

def downL (l : List K) (i n : Nat) : List K × Nat := downFuel lt n l i n

/-- `heap.Fix` on a key list (with an explicit range bound `n`, as used by
`heap.Remove`): `down`, and `up` when the element did not move. -/
def fixL (l : List K) (i n : Nat) : List K :=
  let r := downL lt l i n
  if i < r.2 then r.1 else upL lt r.1 i

end PureHeap

variable {T : Type} [Inhabited T]

/-- Go `Less` as a function of the two compared keys (value and priority):
with a comparator, ascending means a negative result outranks, descending a
positive one; without, compare the `Priority` fields. -/
def ltB (cmp : Option (T → T → Int)) (isMax : Bool) (a b : T × Int) : Bool :=
  match cmp with
  | some c => if isMax then decide (0 < c a.1 b.1) else decide (c a.1 b.1 < 0)
  | none => if isMax then decide (b.2 < a.2) else decide (a.2 < b.2)

/-- The comparison key (value, priority) of one item. -/
def entryOf (it : Item T) : T × Int := (it.value, it.priority)

/-- The comparison keys of the backing array, in array order. -/
def entries (pq : PQ T) : List (T × Int) :=
  pq.items.map (fun id => entryOf (pq.arena.getD id default))

/-- The active ordering of a queue, as a relation on keys. -/
def ltP (pq : PQ T) : T × Int → T × Int → Bool := ltB pq.comparator pq.isMaxHeap

/-- Go `Less i j` (true when the element at array index `i` outranks the one
at `j`). -/
def lessAt (pq : PQ T) (i j : Nat) : Bool :=
  ltP pq (getE (entries pq) i) (getE (entries pq) j)

/-- Replace the element at position `i` by `f` of it (in-range only). -/
def modifyAt {α : Type} [Inhabited α] (l : List α) (i : Nat) (f : α → α) : List α :=
  l.set i (f (l.getD i default))

/-- Mutate the `Index` field of the item with arena id `id`. -/
def setIdx (arena : List (Item T)) (id : Nat) (ix : Int) : List (Item T) :=
  modifyAt arena id (fun it => { it with index := ix })

/-- Go `Swap i j`: exchange the two array slots, then set both items'
`Index` fields to their new indices. -/
def pqSwap (pq : PQ T) (i j : Nat) : PQ T :=
  let its := swapL pq.items i j
  { pq with
    items := its
    arena := setIdx (setIdx pq.arena (getE its i) (i : Int)) (getE its j) (j : Int) }

/-- `up` on the queue state (mirrors `upFuel` with Go `Swap`). -/
def pqUpFuel : Nat → PQ T → Nat → PQ T
  | 0, pq, _ => pq
  | fuel+1, pq, j =>
    if j = 0 then pq
    else if lessAt pq j ((j-1)/2) then
      pqUpFuel fuel (pqSwap pq ((j-1)/2) j) ((j-1)/2)
    else pq

def pqUp (pq : PQ T) (j : Nat) : PQ T := pqUpFuel (j+1) pq j

/-- `down` on the queue state (mirrors `downFuel` with Go `Swap`). -/
def pqDownFuel : Nat → PQ T → Nat → Nat → PQ T × Nat
  | 0, pq, i, _ => (pq, i)
  | fuel+1, pq, i, n =>
    if 2*i+1 < n then
      let j := if 2*i+2 < n && lessAt pq (2*i+2) (2*i+1) then 2*i+2 else 2*i+1
      if lessAt pq j i then pqDownFuel fuel (pqSwap pq i j) j n
      else (pq, i)
    else (pq, i)

def pqDown (pq : PQ T) (i n : Nat) : PQ T × Nat := pqDownFuel n pq i n

/-- `heap.Push`: the queue's raw `Push` (append, set `Index` to the old
length) followed by `up` from the last position. -/
def heapPushPQ (pq : PQ T) (id : Nat) : PQ T :=
  let n := pq.items.length
  pqUp { pq with items := pq.items ++ [id], arena := setIdx pq.arena id (n : Int) } n

/-- The queue's raw `Pop`: remove the last array slot and mark that item's
`Index` as `-1`. -/
def rawPop (pq : PQ T) : PQ T × Nat :=
  let id := getE pq.items (pq.items.length - 1)
  ({ pq with items := pq.items.dropLast, arena := setIdx pq.arena id (-1) }, id)

/-- `heap.Pop`: swap the root with the last element, sift the new root down
within the shrunk range, then raw-pop. -/
def heapPopPQ (pq : PQ T) : PQ T × Nat :=
  let n := pq.items.length - 1
  rawPop (pqDown (pqSwap pq 0 n) 0 n).1

/-- `heap.Fix i`: sift down from `i`; if that did not move the element, sift
up from `i`. -/
def heapFixPQ (pq : PQ T) (i : Nat) : PQ T :=
  let r := pqDown pq i pq.items.length
  if i < r.2 then r.1 else pqUp r.1 i

/-- `heap.Remove i`: if `i` is not the last index, swap with the last element
and re-heapify at `i` within the shrunk range; then raw-pop. -/
def heapRemovePQ (pq : PQ T) (i : Nat) : PQ T × Nat :=
  let n := pq.items.length - 1
  if i = n then rawPop pq
  else
    let r := pqDown (pqSwap pq i n) i n
    rawPop (if i < r.2 then r.1 else pqUp r.1 i)

/-- `heap.Init`: `down` on each internal node, highest index first
(`i = n/2 - 1` down to `0`; the argument counts how many remain). -/
def initAux : Nat → PQ T → PQ T
  | 0, pq => pq
  | k+1, pq => initAux k (pqDown pq k pq.items.length).1

def heapInitPQ (pq : PQ T) : PQ T := initAux (pq.items.length / 2) pq

/-- Common constructor core: empty queue with the chosen policy, then
`heap.Init`. -/
def mkQueue (cmp : Option (T → T → Int)) (isMax : Bool) : PQ T :=
  heapInitPQ { arena := [], items := [], comparator := cmp, isMaxHeap := isMax }

/-- Go `New`: min-first queue with built-in numeric ordering. -/
def New (T : Type) [Inhabited T] : PQ T := mkQueue none false

/-- Go `NewMax`: max-first queue with built-in numeric ordering. -/
def NewMax (T : Type) [Inhabited T] : PQ T := mkQueue none true

/-- Go `NewWithComparator`. -/
def NewWithComparator (c : T → T → Int) (isMax : Bool) : PQ T := mkQueue (some c) isMax

/-- Go `Enqueue`: allocate a fresh item (the next arena id, `Index` zero at
allocation) and `heap.Push` it; returns the new state and the handle. -/
def Enqueue (pq : PQ T) (v : T) (p : Int) : PQ T × Nat :=
  let id := pq.arena.length
  (heapPushPQ { pq with arena := pq.arena ++ [⟨v, p, 0⟩] } id, id)

/-- Go `Dequeue`: `(zero, false)` on empty, else `heap.Pop` and return the
popped item's value with `true`. -/
def Dequeue (pq : PQ T) : PQ T × T × Bool :=
  if pq.items.length = 0 then (pq, default, false)
  else
    let r := heapPopPQ pq
    (r.1, (r.1.arena.getD r.2 default).value, true)

/-- Go `Peek`: `(zero, false)` on empty, else the root's value with `true`;
reads only. -/
def Peek (pq : PQ T) : T × Bool :=
  if pq.items.length = 0 then (default, false)
  else ((pq.arena.getD (getE pq.items 0) default).value, true)

def IsEmpty (pq : PQ T) : Bool := pq.items.length = 0

def Size (pq : PQ T) : Nat := pq.items.length

/-- Go `Clear`: truncate the backing array (`pq.items[:0]`) and `heap.Init`.
The arena (and hence every issued handle's `Index` field) is untouched. -/
def Clear (pq : PQ T) : PQ T := heapInitPQ { pq with items := [] }

/-- Go `UpdatePriority`: no-op when the handle's `Index` is out of the array
bounds; else set its `Priority` and `heap.Fix` at that index. -/
def UpdatePriority (pq : PQ T) (id : Nat) (p : Int) : PQ T :=
  let ix := (pq.arena.getD id default).index
  if ix < 0 ∨ (pq.items.length : Int) ≤ ix then pq
  else
    heapFixPQ
      { pq with arena := modifyAt pq.arena id (fun it => { it with priority := p }) }
      ix.toNat

/-- Go `Remove`: `(zero, false)` when the handle's `Index` is out of bounds;
else `heap.Remove` at that index and return the removed item's value with
`true`. -/
def Remove (pq : PQ T) (id : Nat) : PQ T × T × Bool :=
  let ix := (pq.arena.getD id default).index
  if ix < 0 ∨ (pq.items.length : Int) ≤ ix then (pq, default, false)
  else
    let r := heapRemovePQ pq ix.toNat
    (r.1, (r.1.arena.getD r.2 default).value, true)

/-- One public mutating operation, with handles as arena ids. -/
inductive Op (T : Type) where
  | enq (v : T) (p : Int)
  | deq
  | upd (id : Nat) (p : Int)
  | rem (id : Nat)
  | clearAll

/-- Apply one operation (dropping returned values/handles). -/
def applyOp (pq : PQ T) : Op T → PQ T
  | .enq v p => (Enqueue pq v p).1
  | .deq => (Dequeue pq).1
  | .upd id p => UpdatePriority pq id p
  | .rem id => (Remove pq id).1
  | .clearAll => Clear pq

def runOps (pq : PQ T) : List (Op T) → PQ T
  | [] => pq
  | op :: ops => runOps (applyOp pq op) ops

def enqueueAll (pq : PQ T) : List (T × Int) → PQ T
  | [] => pq
  | (v, p) :: xs => enqueueAll (Enqueue pq v p).1 xs

/-- Keys (value, stored priority) of the items popped by successive
`heap.Pop`s. -/
def drainEntries : Nat → PQ T → List (T × Int)
  | 0, _ => []
  | fuel+1, pq =>
    if pq.items.length = 0 then []
    else
      let r := heapPopPQ pq
      entryOf (r.1.arena.getD r.2 default) :: drainEntries fuel r.1

/-- Results of successive `Dequeue` calls (stopping at empty). -/
def drainDequeue : Nat → PQ T → List (T × Bool)
  | 0, _ => []
  | fuel+1, pq =>
    if pq.items.length = 0 then []
    else
      let r := Dequeue pq
      (r.2.1, r.2.2) :: drainDequeue fuel r.1

/-! ### Specification predicates -/

/-- `j` is a child slot of `i` in the implicit binary tree (0-based). -/
def IsChild (i j : Nat) : Prop := j = 2*i+1 ∨ j = 2*i+2

instance (i j : Nat) : Decidable (IsChild i j) := by
  unfold IsChild; infer_instance

/-- The strict comparison is asymmetric. -/
def Asymm {K : Type} (lt : K → K → Bool) : Prop :=
  ∀ a b, lt a b = true → lt b a = false

/-- The complement (`le a b := lt b a = false`) is transitive.  Together with
`Asymm` this says `lt` is the strict part of a total preorder, the contract
the spec imposes on comparators (the built-in numeric ordering satisfies
both). -/
def LeTrans {K : Type} (lt : K → K → Bool) : Prop :=
  ∀ a b c, lt b a = false → lt c b = false → lt c a = false

/-- Heap invariant on the prefix `[0, n)` of a key list: no child outranks
its parent. -/
def WfP {K : Type} [Inhabited K] (lt : K → K → Bool) (l : List K) (n : Nat) : Prop :=
  ∀ i j, IsChild i j → j < n → lt (getE l j) (getE l i) = false

/-- Heap invariant of a queue state under its active ordering. -/
def HeapWf (pq : PQ T) : Prop := WfP (ltP pq) (entries pq) pq.items.length

/-- Every id in the backing array points into the arena. -/
def IdsOK (pq : PQ T) : Prop := ∀ id ∈ pq.items, id < pq.arena.length

/-- Position tracking: the item at array index `i` has `Index = i`. -/
def PosOK (pq : PQ T) : Prop :=
  ∀ i, i < pq.items.length →
    (pq.arena.getD (getE pq.items i) default).index = (i : Int)

/-- Structural well-formedness: valid distinct ids with correct `Index`
fields (Go pointers are automatically distinct and valid). -/
def StateOK (pq : PQ T) : Prop := IdsOK pq ∧ pq.items.Nodup ∧ PosOK pq

/-- The values currently stored in the queue, in array order. -/
def valuesOf (pq : PQ T) : List T :=
  pq.items.map (fun id => (pq.arena.getD id default).value)

/-- A handle consumed by `Dequeue` or `Remove`: its `Index` was set to `-1`
and its item is no longer in the backing array. -/
def Consumed (pq : PQ T) (id : Nat) : Prop :=
  (pq.arena.getD id default).index = -1 ∧ id ∉ pq.items

/-- The value stored at array position `i`. -/
def valueAt (pq : PQ T) (i : Nat) : T :=
  (pq.arena.getD (getE pq.items i) default).value

/-- Three-way subtraction comparator on integers (used as a concrete custom
comparator). -/
def cmpSub (a b : Int) : Int := a - b

instance (pq : PQ T) : Decidable (IdsOK pq) := by
  unfold IdsOK
  infer_instance

instance (pq : PQ T) : Decidable (PosOK pq) := by
  unfold PosOK
  infer_instance

instance (pq : PQ T) : Decidable (StateOK pq) := by
  unfold StateOK
  infer_instance

instance (pq : PQ T) (id : Nat) : Decidable (Consumed pq id) := by
  unfold Consumed
  infer_instance

/-- Pure analogue of repeatedly `heap.Pop`ping every key. -/
def drainK {K : Type} [Inhabited K] (lt : K → K → Bool) : Nat → List K → List K
  | 0, _ => []
  | fuel+1, l =>
    if l.length = 0 then []
    else
      let n := l.length - 1
      getE l 0 :: drainK lt fuel (downL lt (swapL l 0 n) 0 n).1.dropLast

/-! ### Basic lemmas about `getE`, `swapL`, `modifyAt` -/

section BasicLemmas

variable {K : Type} [Inhabited K]

theorem getE_eq_getElem {l : List K} {i : Nat} (h : i < l.length) : getE l i = l[i] :=
  List.getD_eq_getElem l default h

theorem getE_of_le {l : List K} {i : Nat} (h : l.length ≤ i) : getE l i = default :=
  List.getD_eq_default l default h

@[simp] theorem length_swapL (l : List K) (i j : Nat) :
    (swapL l i j).length = l.length := by
  simp [swapL]

theorem getE_swapL {l : List K} {i j : Nat} (hi : i < l.length) (hj : j < l.length)
    (k : Nat) :
    getE (swapL l i j) k =
      if k = j then getE l i else if k = i then getE l j else getE l k := by
  by_cases hk : k < l.length
  · have hk1 : k < ((l.set i (getE l j)).set j (getE l i)).length := by simpa using hk
    rw [swapL, getE_eq_getElem hk1, List.getElem_set, List.getElem_set]
    rw [getE_eq_getElem hk]
    by_cases h1 : j = k
    · subst h1; simp
    · by_cases h2 : i = k
      · subst h2; simp [h1, Ne.symm h1]
      · simp [h1, h2, Ne.symm h1, Ne.symm h2]
  · have hk' : l.length ≤ k := Nat.le_of_not_lt hk
    have e1 : getE (swapL l i j) k = default :=
      getE_of_le (by simpa using hk')
    have h1 : k ≠ j := fun h => hk (h ▸ hj)
    have h2 : k ≠ i := fun h => hk (h ▸ hi)
    rw [e1, if_neg h1, if_neg h2, getE_of_le hk']

@[simp] theorem getE_cons_zero (x : K) (xs : List K) : getE (x :: xs) 0 = x := rfl

@[simp] theorem getE_cons_succ (x : K) (xs : List K) (n : Nat) :
    getE (x :: xs) (n+1) = getE xs n := rfl

theorem perm_cons_set {xs : List K} {m : Nat} (x : K) (hm : m < xs.length) :
    List.Perm (getE xs m :: xs.set m x) (x :: xs) := by
  induction xs generalizing m with
  | nil => simp at hm
  | cons z zs ih =>
    cases m with
    | zero => simpa using List.Perm.swap x z zs
    | succ m =>
      have hm' : m < zs.length := by simpa using hm
      have h1 : (z :: zs).set (m+1) x = z :: zs.set m x := by simp
      rw [getE_cons_succ, h1]
      exact ((List.Perm.swap z (getE zs m) (zs.set m x)).trans
        ((ih hm').cons z)).trans (List.Perm.swap x z zs)

theorem swapL_perm {l : List K} {i j : Nat} (hi : i < l.length) (hj : j < l.length) :
    List.Perm (swapL l i j) l := by
  induction l generalizing i j with
  | nil => simp at hi
  | cons x xs ih =>
    cases i with
    | zero =>
      cases j with
      | zero => simp [swapL]
      | succ m =>
        have hm : m < xs.length := by simpa using hj
        have : swapL (x :: xs) 0 (m+1) = getE xs m :: xs.set m x := by
          simp [swapL]
        rw [this]
        exact perm_cons_set x hm
    | succ k =>
      cases j with
      | zero =>
        have hk : k < xs.length := by simpa using hi
        have : swapL (x :: xs) (k+1) 0 = getE xs k :: xs.set k x := by
          simp [swapL]
        rw [this]
        exact perm_cons_set x hk
      | succ m =>
        have hk : k < xs.length := by simpa using hi
        have hm : m < xs.length := by simpa using hj
        have : swapL (x :: xs) (k+1) (m+1) = x :: swapL xs k m := by
          simp [swapL]
        rw [this]
        exact (ih hk hm).cons x

@[simp] theorem length_modifyAt {α : Type} [Inhabited α] (l : List α) (i : Nat)
    (f : α → α) : (modifyAt l i f).length = l.length := by
  simp [modifyAt]

theorem getD_modifyAt_self {α : Type} [Inhabited α] {l : List α} {i : Nat}
    (hi : i < l.length) (f : α → α) :
    (modifyAt l i f).getD i default = f (l.getD i default) := by
  have h2 : i < (modifyAt l i f).length := by simpa using hi
  simp only [modifyAt] at h2 ⊢
  rw [List.getD_eq_getElem _ _ h2, List.getElem_set_self]

theorem getD_modifyAt_ne {α : Type} [Inhabited α] (l : List α) {i k : Nat}
    (h : i ≠ k) (f : α → α) :
    (modifyAt l i f).getD k default = l.getD k default := by
  by_cases hk : k < l.length
  · have hk' : k < (modifyAt l i f).length := by simpa using hk
    rw [List.getD_eq_getElem _ _ hk', List.getD_eq_getElem _ _ hk]
    simp only [modifyAt]
    rw [List.getElem_set_ne h]
  · rw [List.getD_eq_default _ _ (Nat.le_of_not_lt hk),
      List.getD_eq_default _ _ (by simpa using Nat.le_of_not_lt hk)]

theorem getD_modifyAt_oor {α : Type} [Inhabited α] (l : List α) {i : Nat}
    (h : l.length ≤ i) (f : α → α) (k : Nat) :
    (modifyAt l i f).getD k default = l.getD k default := by
  simp only [modifyAt]
  rw [List.set_eq_of_length_le h]

end BasicLemmas

/-! ### Correctness of the sift loops -/

section SiftLemmas

variable {K : Type} [Inhabited K] {lt : K → K → Bool}

theorem IsChild.parent_lt {i j : Nat} (h : IsChild i j) : i < j := by
  rcases h with h | h <;> omega

theorem IsChild.pos {i j : Nat} (h : IsChild i j) : 1 ≤ j := by
  rcases h with h | h <;> omega

theorem IsChild.parent_eq {i j : Nat} (h : IsChild i j) : i = (j-1)/2 := by
  rcases h with h | h <;> omega

theorem isChild_parent {j : Nat} (h : 1 ≤ j) : IsChild ((j-1)/2) j := by
  unfold IsChild; omega

/-- Correctness of the `up` loop: if the prefix `[0, n)` is a heap except
possibly at the edge into `j`, and the would-be edges from `j`'s parent to
`j`'s children hold, then sifting up restores the heap invariant; the loop
permutes the list and does not touch positions above `j`. -/
theorem upFuel_spec (hA : Asymm lt) (hT : LeTrans lt) :
    ∀ (fuel : Nat) (l : List K) (j n : Nat), j < fuel → j < n → n ≤ l.length →
      (∀ a b, IsChild a b → b < n → b ≠ j → lt (getE l b) (getE l a) = false) →
      (∀ c, IsChild j c → c < n → lt (getE l c) (getE l ((j-1)/2)) = false) →
      (upFuel lt fuel l j).length = l.length ∧
      List.Perm (upFuel lt fuel l j) l ∧
      (∀ k, j < k → getE (upFuel lt fuel l j) k = getE l k) ∧
      WfP lt (upFuel lt fuel l j) n := by
  intro fuel
  induction fuel with
  | zero => intro l j n hf _ _ _ _; omega
  | succ f ih =>
    intro l j n hf hjn hn H1 H2
    by_cases hj0 : j = 0
    · subst hj0
      simp only [upFuel, if_pos rfl]
      refine ⟨rfl, List.Perm.refl _, fun k _ => rfl, ?_⟩
      intro a b hab hb
      exact H1 a b hab hb (by have := hab.pos; omega)
    · obtain ⟨i, hidef⟩ : ∃ i, i = (j-1)/2 := ⟨_, rfl⟩
      have hij : IsChild i j := hidef ▸ isChild_parent (by omega)
      have hi_lt : i < j := hij.parent_lt
      have hjlen : j < l.length := Nat.lt_of_lt_of_le hjn hn
      have hilen : i < l.length := Nat.lt_trans hi_lt hjlen
      have hsj : getE (swapL l i j) j = getE l i := by
        rw [getE_swapL hilen hjlen, if_pos rfl]
      have hsi : getE (swapL l i j) i = getE l j := by
        rw [getE_swapL hilen hjlen, if_neg (by omega : i ≠ j), if_pos rfl]
      have hso : ∀ k, k ≠ i → k ≠ j → getE (swapL l i j) k = getE l k := by
        intro k hki hkj
        rw [getE_swapL hilen hjlen, if_neg hkj, if_neg hki]
      simp only [upFuel, if_neg hj0]
      rw [← hidef]
      by_cases hlt : lt (getE l j) (getE l i) = true
      · rw [if_pos hlt]
        have hH1' : ∀ a b, IsChild a b → b < n → b ≠ i →
            lt (getE (swapL l i j) b) (getE (swapL l i j) a) = false := by
          intro a b hab hb hbi
          by_cases hbj : b = j
          · have ha : a = i := by rw [hab.parent_eq, hbj, ← hidef]
            rw [hbj, ha, hsj, hsi]
            exact hA _ _ hlt
          · by_cases hai : a = i
            · rw [hai, hso b hbi hbj, hsi]
              have h1 : lt (getE l b) (getE l i) = false :=
                H1 i b (hai ▸ hab) hb hbj
              exact hT (getE l j) (getE l i) (getE l b) (hA _ _ hlt) h1
            · by_cases haj : a = j
              · rw [haj, hso b hbi hbj, hsj]
                have := H2 b (haj ▸ hab) hb
                rwa [← hidef] at this
              · rw [hso b hbi hbj, hso a hai haj]
                exact H1 a b hab hb hbj
        have hH2' : ∀ c, IsChild i c → c < n →
            lt (getE (swapL l i j) c) (getE (swapL l i j) ((i-1)/2)) = false := by
          intro c hic hcn
          by_cases hi0 : i = 0
          · have hg : (i-1)/2 = i := by omega
            rw [hg, hsi]
            by_cases hcj : c = j
            · rw [hcj, hsj]
              exact hA _ _ hlt
            · have hci : c ≠ i := by have := hic.parent_lt; omega
              rw [hso c hci hcj]
              have h1 : lt (getE l c) (getE l i) = false := H1 i c hic hcn hcj
              exact hT (getE l j) (getE l i) (getE l c) (hA _ _ hlt) h1
          · have hgi : (i-1)/2 < i := by omega
            have hgj : (i-1)/2 ≠ j := by omega
            have hgine : (i-1)/2 ≠ i := by omega
            have hgig : IsChild ((i-1)/2) i := isChild_parent (by omega)
            rw [hso _ hgine hgj]
            by_cases hcj : c = j
            · rw [hcj, hsj]
              exact H1 _ i hgig (by omega) (by omega)
            · have hci : c ≠ i := by have := hic.parent_lt; omega
              rw [hso c hci hcj]
              have h1 : lt (getE l i) (getE l ((i-1)/2)) = false :=
                H1 _ i hgig (by omega) (by omega)
              have h2 : lt (getE l c) (getE l i) = false := H1 i c hic hcn hcj
              exact hT (getE l ((i-1)/2)) (getE l i) (getE l c) h1 h2
        obtain ⟨hlen, hperm, hframe, hwf⟩ :=
          ih (swapL l i j) i n (by omega) (by omega) (by simpa using hn) hH1' hH2'
        refine ⟨by simpa using hlen, hperm.trans (swapL_perm hilen hjlen), ?_, hwf⟩
        intro k hk
        rw [hframe k (by omega), hso k (by omega) (by omega)]
      · rw [if_neg hlt]
        have hlt' : lt (getE l j) (getE l i) = false := by
          revert hlt; cases lt (getE l j) (getE l i) <;> simp
        refine ⟨rfl, List.Perm.refl _, fun k _ => rfl, ?_⟩
        intro a b hab hb
        by_cases hbj : b = j
        · have ha : a = i := by rw [hab.parent_eq, hbj, ← hidef]
          rw [hbj, ha]
          exact hlt'
        · exact H1 a b hab hb hbj

/-- Correctness of the `down` loop on the prefix `[0, n)`: if all edges not
touching `i` hold, and the would-be edges from `i`'s parent to `i`'s children
hold (the bridge left by removing/overwriting the key at `i`), then after
sinking, all edges not touching the final position hold, the final element
does not outrank its children, and — when it moved — does not outrank its
parent.  The loop permutes the list, touches only positions in `[i, n)`, and
is the identity when the element did not move. -/
theorem downFuel_spec (hA : Asymm lt) (hT : LeTrans lt) :
    ∀ (fuel : Nat) (l : List K) (i n : Nat), n - i ≤ fuel → i < n → n ≤ l.length →
      (∀ a b, IsChild a b → b < n → a ≠ i → b ≠ i →
        lt (getE l b) (getE l a) = false) →
      (∀ c, IsChild i c → c < n → i ≠ 0 →
        lt (getE l c) (getE l ((i-1)/2)) = false) →
      (i ≤ (downFuel lt fuel l i n).2 ∧ (downFuel lt fuel l i n).2 < n) ∧
      (downFuel lt fuel l i n).1.length = l.length ∧
      List.Perm (downFuel lt fuel l i n).1 l ∧
      (∀ k, k < i ∨ n ≤ k → getE (downFuel lt fuel l i n).1 k = getE l k) ∧
      ((downFuel lt fuel l i n).2 = i → (downFuel lt fuel l i n).1 = l) ∧
      (∀ a b, IsChild a b → b < n → a ≠ (downFuel lt fuel l i n).2 →
        b ≠ (downFuel lt fuel l i n).2 →
        lt (getE (downFuel lt fuel l i n).1 b) (getE (downFuel lt fuel l i n).1 a)
          = false) ∧
      (∀ c, IsChild (downFuel lt fuel l i n).2 c → c < n →
        lt (getE (downFuel lt fuel l i n).1 c)
          (getE (downFuel lt fuel l i n).1 (downFuel lt fuel l i n).2) = false) ∧
      ((downFuel lt fuel l i n).2 ≠ i →
        lt (getE (downFuel lt fuel l i n).1 (downFuel lt fuel l i n).2)
          (getE (downFuel lt fuel l i n).1 (((downFuel lt fuel l i n).2 - 1)/2))
          = false) := by
  intro fuel
  induction fuel with
  | zero => intro l i n hf hin _ _ _; omega
  | succ f ih =>
    intro l i n hf hin hn D1 D2
    by_cases hch : 2*i+1 < n
    · obtain ⟨j, hjeq, hjc, hjn, hsib⟩ :
          ∃ j, (if 2*i+2 < n && lt (getE l (2*i+2)) (getE l (2*i+1))
                then 2*i+2 else 2*i+1) = j
            ∧ IsChild i j ∧ j < n
            ∧ ∀ s, IsChild i s → s < n → s ≠ j →
                lt (getE l s) (getE l j) = false := by
        by_cases hsel : (2*i+2 < n && lt (getE l (2*i+2)) (getE l (2*i+1))) = true
        · obtain ⟨h1, h2⟩ := Bool.and_eq_true_iff.mp hsel
          refine ⟨2*i+2, if_pos hsel, Or.inr rfl, of_decide_eq_true h1, ?_⟩
          intro s hs hsn hsne
          have hs1 : s = 2*i+1 := by rcases hs with h | h <;> omega
          rw [hs1]
          exact hA _ _ h2
        · have hself : (2*i+2 < n && lt (getE l (2*i+2)) (getE l (2*i+1))) = false := by
            revert hsel
            cases (2*i+2 < n && lt (getE l (2*i+2)) (getE l (2*i+1))) <;> simp
          refine ⟨2*i+1, if_neg hsel, Or.inl rfl, by omega, ?_⟩
          intro s hs hsn hsne
          have hs2 : s = 2*i+2 := by rcases hs with h | h <;> omega
          subst hs2
          rcases Bool.and_eq_false_iff.mp hself with h | h
          · exact absurd (of_decide_eq_false h) (by omega)
          · exact h
      have hilt : i < j := hjc.parent_lt
      have hjlen : j < l.length := Nat.lt_of_lt_of_le hjn hn
      have hilen : i < l.length := Nat.lt_trans hilt hjlen
      simp only [downFuel, if_pos hch]
      rw [hjeq]
      by_cases hlt : lt (getE l j) (getE l i) = true
      · rw [if_pos hlt]
        have hsj : getE (swapL l i j) j = getE l i := by
          rw [getE_swapL hilen hjlen, if_pos rfl]
        have hsi : getE (swapL l i j) i = getE l j := by
          rw [getE_swapL hilen hjlen, if_neg (by omega : i ≠ j), if_pos rfl]
        have hso : ∀ k, k ≠ i → k ≠ j → getE (swapL l i j) k = getE l k := by
          intro k hki hkj
          rw [getE_swapL hilen hjlen, if_neg hkj, if_neg hki]
        have hD1' : ∀ a b, IsChild a b → b < n → a ≠ j → b ≠ j →
            lt (getE (swapL l i j) b) (getE (swapL l i j) a) = false := by
          intro a b hab hb haj hbj
          by_cases hbi : b = i
          · have hi0 : i ≠ 0 := by
              have := hbi ▸ hab.pos; omega
            have ha : a = (i-1)/2 := by rw [hab.parent_eq, hbi]
            have hai : a ≠ i := by rw [ha]; omega
            rw [hbi, hsi, hso a hai haj, ha]
            exact D2 j hjc hjn hi0
          · by_cases hai : a = i
            · rw [hai, hsi, hso b hbi hbj]
              exact hsib b (hai ▸ hab) hb hbj
            · rw [hso b hbi hbj, hso a hai haj]
              exact D1 a b hab hb hai hbi
        have hD2' : ∀ c, IsChild j c → c < n → j ≠ 0 →
            lt (getE (swapL l i j) c) (getE (swapL l i j) ((j-1)/2)) = false := by
          intro c hjcc hcn _
          have hpar : (j-1)/2 = i := (hjc.parent_eq).symm
          have hci : c ≠ i := by have := hjcc.parent_lt; omega
          have hcj : c ≠ j := by have := hjcc.parent_lt; omega
          rw [hpar, hsi, hso c hci hcj]
          exact D1 j c hjcc hcn (by omega) hci
        obtain ⟨⟨hfige, hfin⟩, hlen, hperm, hframe, hC5, hC6, hC7, hC8⟩ :=
          ih (swapL l i j) j n (by omega) hjn (by simpa using hn) hD1' hD2'
        refine ⟨⟨by omega, hfin⟩, by simpa using hlen,
          hperm.trans (swapL_perm hilen hjlen), ?_, ?_, hC6, hC7, ?_⟩
        · intro k hk
          rw [hframe k (by omega), hso k (by omega) (by omega)]
        · intro hfi
          omega
        · intro _
          by_cases hfij : (downFuel lt f (swapL l i j) j n).2 = j
          · rw [hC5 hfij, hfij, (hjc.parent_eq).symm, hsj, hsi]
            exact hA _ _ hlt
          · exact hC8 hfij
      · rw [if_neg hlt]
        have hlt' : lt (getE l j) (getE l i) = false := by
          revert hlt; cases lt (getE l j) (getE l i) <;> simp
        refine ⟨⟨Nat.le_refl i, hin⟩, rfl, List.Perm.refl _, fun k _ => rfl,
          fun _ => rfl, D1, ?_, fun h => absurd rfl h⟩
        intro c hc hcn
        by_cases hcj : c = j
        · rw [hcj]; exact hlt'
        · exact hT (getE l i) (getE l j) (getE l c) hlt' (hsib c hc hcn hcj)
    · have hres : downFuel lt (f+1) l i n = (l, i) := by
        simp only [downFuel, if_neg hch]
      rw [hres]
      refine ⟨⟨Nat.le_refl i, hin⟩, rfl, List.Perm.refl _, fun k _ => rfl,
        fun _ => rfl, D1, ?_, fun h => absurd rfl h⟩
      intro c hc hcn
      rcases hc with h | h <;> omega

end SiftLemmas

/-! ### Composite heap operations on key lists -/

section CompositeLemmas

variable {K : Type} [Inhabited K] {lt : K → K → Bool}

theorem getE_append {l l' : List K} {k : Nat} (h : k < l.length) :
    getE (l ++ l') k = getE l k :=
  List.getD_append l l' default k h

theorem getE_dropLast {l : List K} {k : Nat} (h : k < l.length - 1) :
    getE l.dropLast k = getE l k := by
  have h1 : k < l.dropLast.length := by simpa using h
  rw [getE_eq_getElem h1, getE_eq_getElem (by omega : k < l.length),
    List.getElem_dropLast]

theorem dropLast_append_getE {l : List K} (h : l ≠ []) :
    l.dropLast ++ [getE l (l.length - 1)] = l := by
  have hlen : 0 < l.length := List.length_pos.mpr h
  have h2 := List.dropLast_append_getLast h
  rw [List.getLast_eq_getElem] at h2
  rw [getE_eq_getElem (by omega)]
  exact h2

/-- In a heap, no element outranks the root. -/
theorem wfp_root_min (hA : Asymm lt) (hT : LeTrans lt) {l : List K} {n : Nat}
    (hwf : WfP lt l n) : ∀ k, k < n → lt (getE l k) (getE l 0) = false := by
  intro k
  induction k using Nat.strong_induction_on with
  | _ k ih =>
    intro hk
    cases k with
    | zero =>
      by_cases h : lt (getE l 0) (getE l 0) = true
      · have := hA _ _ h
        rw [this] at h
        exact absurd h (by simp)
      · revert h; cases lt (getE l 0) (getE l 0) <;> simp
    | succ m =>
      have hpar : IsChild ((m+1-1)/2) (m+1) := isChild_parent (by omega)
      have hedge : lt (getE l (m+1)) (getE l ((m+1-1)/2)) = false :=
        hwf _ _ hpar hk
      have hup : lt (getE l ((m+1-1)/2)) (getE l 0) = false :=
        ih _ (by have := hpar.parent_lt; omega) (by omega)
      exact hT (getE l 0) (getE l ((m+1-1)/2)) (getE l (m+1)) hup hedge

/-- `upL` wrapper of `upFuel_spec`. -/
theorem upL_spec (hA : Asymm lt) (hT : LeTrans lt) {l : List K} {j n : Nat}
    (hjn : j < n) (hn : n ≤ l.length)
    (H1 : ∀ a b, IsChild a b → b < n → b ≠ j → lt (getE l b) (getE l a) = false)
    (H2 : ∀ c, IsChild j c → c < n → lt (getE l c) (getE l ((j-1)/2)) = false) :
    (upL lt l j).length = l.length ∧
    List.Perm (upL lt l j) l ∧
    (∀ k, j < k → getE (upL lt l j) k = getE l k) ∧
    WfP lt (upL lt l j) n :=
  upFuel_spec hA hT (j+1) l j n (by omega) hjn hn H1 H2

/-- `heap.Fix` (with explicit bound `n`) restores the heap invariant when all
edges not touching `i` hold and the parent-to-children bridge across `i`
holds. -/
theorem fixL_spec (hA : Asymm lt) (hT : LeTrans lt) {l : List K} {i n : Nat}
    (hk : i < n) (hn : n ≤ l.length)
    (F1 : ∀ a b, IsChild a b → b < n → a ≠ i → b ≠ i →
      lt (getE l b) (getE l a) = false)
    (F2 : ∀ c, IsChild i c → c < n → i ≠ 0 →
      lt (getE l c) (getE l ((i-1)/2)) = false) :
    (fixL lt l i n).length = l.length ∧
    List.Perm (fixL lt l i n) l ∧
    (∀ m, n ≤ m → getE (fixL lt l i n) m = getE l m) ∧
    WfP lt (fixL lt l i n) n := by
  obtain ⟨⟨hige, hin⟩, hlen, hperm, hframe, hC5, hC6, hC7, hC8⟩ :=
    downFuel_spec hA hT n l i n (by omega) hk hn F1 F2
  rw [fixL]
  simp only [downL] at *
  by_cases hmv : i < (downFuel lt n l i n).2
  · rw [if_pos hmv]
    refine ⟨hlen, hperm, fun m hm => hframe m (Or.inr hm), ?_⟩
    intro a b hab hb
    by_cases hbf : b = (downFuel lt n l i n).2
    · have ha : a = ((downFuel lt n l i n).2 - 1)/2 := by
        rw [hab.parent_eq, hbf]
      rw [hbf, ha]
      exact hC8 (by omega)
    · by_cases haf : a = (downFuel lt n l i n).2
      · exact haf ▸ hC7 b (haf ▸ hab) hb
      · exact hC6 a b hab hb haf hbf
  · rw [if_neg hmv]
    have hfi : (downFuel lt n l i n).2 = i := by omega
    have hleq : (downFuel lt n l i n).1 = l := hC5 hfi
    rw [hleq]
    rw [hfi, hleq] at hC6 hC7
    have H1 : ∀ a b, IsChild a b → b < n → b ≠ i →
        lt (getE l b) (getE l a) = false := by
      intro a b hab hb hbi
      by_cases hai : a = i
      · subst hai
        exact hC7 b hab hb
      · exact hC6 a b hab hb hai hbi
    have H2 : ∀ c, IsChild i c → c < n →
        lt (getE l c) (getE l ((i-1)/2)) = false := by
      intro c hic hcn
      by_cases hi0 : i = 0
      · have hg : (i-1)/2 = i := by omega
        rw [hg]
        exact hC7 c hic hcn
      · exact F2 c hic hcn hi0
    obtain ⟨hlen2, hperm2, hframe2, hwf2⟩ := upL_spec hA hT hk hn H1 H2
    exact ⟨hlen2, hperm2, fun m hm => hframe2 m (by omega), hwf2⟩

/-- `heap.Pop` core: popping the root of a heap yields the root key, a heap
on the remaining keys, a permutation, and the root outranks-or-ties
everything that remains. -/
theorem pop_spec (hA : Asymm lt) (hT : LeTrans lt) {l : List K}
    (h1 : 1 ≤ l.length) (hwf : WfP lt l l.length) :
    (downL lt (swapL l 0 (l.length - 1)) 0 (l.length - 1)).1.dropLast.length
        = l.length - 1 ∧
    List.Perm
      (getE l 0 :: (downL lt (swapL l 0 (l.length - 1)) 0 (l.length - 1)).1.dropLast)
      l ∧
    WfP lt (downL lt (swapL l 0 (l.length - 1)) 0 (l.length - 1)).1.dropLast
      (l.length - 1) ∧
    (∀ y ∈ (downL lt (swapL l 0 (l.length - 1)) 0 (l.length - 1)).1.dropLast,
      lt y (getE l 0) = false) := by
  have hmin := wfp_root_min hA hT hwf
  by_cases hm : l.length = 1
  · obtain ⟨a, ha⟩ := List.length_eq_one.mp hm
    subst ha
    refine ⟨rfl, ?_, fun i j _ hj => absurd hj (by omega), fun y hy => absurd hy ?_⟩
    · exact List.Perm.refl [a]
    · simp [swapL, downL, downFuel]
  · have hm2 : 2 ≤ l.length := by omega
    obtain ⟨m, hmeq⟩ : ∃ m, l.length = m + 1 := ⟨l.length - 1, by omega⟩
    have hm1 : 1 ≤ m := by omega
    have hlm : m < l.length := by omega
    have h0m : (0:Nat) < l.length := by omega
    have hsw0 : getE (swapL l 0 m) 0 = getE l m := by
      rw [getE_swapL h0m hlm, if_neg (by omega : (0:Nat) ≠ m), if_pos rfl]
    have hswm : getE (swapL l 0 m) m = getE l 0 := by
      rw [getE_swapL h0m hlm, if_pos rfl]
    have hswo : ∀ k, k ≠ 0 → k ≠ m → getE (swapL l 0 m) k = getE l k := by
      intro k hk0 hkm
      rw [getE_swapL h0m hlm, if_neg hkm, if_neg hk0]
    have hD1 : ∀ a b, IsChild a b → b < m → a ≠ 0 → b ≠ 0 →
        lt (getE (swapL l 0 m) b) (getE (swapL l 0 m) a) = false := by
      intro a b hab hb ha0 hb0
      have haltb := hab.parent_lt
      rw [hswo b hb0 (by omega), hswo a ha0 (by omega)]
      exact hwf a b hab (by omega)
    have hD2 : ∀ c, IsChild 0 c → c < m → (0:Nat) ≠ 0 →
        lt (getE (swapL l 0 m) c) (getE (swapL l 0 m) ((0-1)/2)) = false := by
      intro c _ _ h
      exact absurd rfl h
    obtain ⟨⟨hfige, hfin⟩, hlen, hperm, hframe, hC5, hC6, hC7, hC8⟩ :=
      downFuel_spec hA hT m (swapL l 0 m) 0 m (by omega) (by omega)
        (by simpa using (by omega : m ≤ l.length)) hD1 hD2
    rw [hmeq]
    simp only [Nat.add_sub_cancel, downL]
    have hlen2 : (downFuel lt m (swapL l 0 m) 0 m).1.length = l.length := by
      simpa using hlen
    have hgetm : getE (downFuel lt m (swapL l 0 m) 0 m).1 m = getE l 0 := by
      rw [hframe m (Or.inr (Nat.le_refl m)), hswm]
    have hdrop : (downFuel lt m (swapL l 0 m) 0 m).1.dropLast ++ [getE l 0]
        = (downFuel lt m (swapL l 0 m) 0 m).1 := by
      have hne : (downFuel lt m (swapL l 0 m) 0 m).1 ≠ [] := by
        intro h
        rw [h] at hlen2
        simp at hlen2
        omega
      have := dropLast_append_getE hne
      rwa [hlen2, hmeq, Nat.add_sub_cancel, hgetm] at this
    have hlen3 : (downFuel lt m (swapL l 0 m) 0 m).1.dropLast.length = m := by
      rw [List.length_dropLast, hlen2, hmeq, Nat.add_sub_cancel]
    have hpermfull :
        List.Perm (getE l 0 :: (downFuel lt m (swapL l 0 m) 0 m).1.dropLast) l := by
      have p1 : List.Perm
          ((downFuel lt m (swapL l 0 m) 0 m).1.dropLast ++ [getE l 0]) l := by
        rw [hdrop]
        exact hperm.trans (swapL_perm h0m hlm)
      exact (List.perm_append_singleton _ _).symm.trans p1
    refine ⟨hlen3, hpermfull, ?_, ?_⟩
    · intro a b hab hb
      have hal := hab.parent_lt
      have hbm : b < m := hb
      rw [getE_dropLast (by omega), getE_dropLast (by omega)]
      by_cases hbf : b = (downFuel lt m (swapL l 0 m) 0 m).2
      · have ha : a = ((downFuel lt m (swapL l 0 m) 0 m).2 - 1)/2 := by
          rw [hab.parent_eq, hbf]
        rw [hbf, ha]
        exact hC8 (by have := hab.pos; omega)
      · by_cases haf : a = (downFuel lt m (swapL l 0 m) 0 m).2
        · exact haf ▸ hC7 b (haf ▸ hab) hbm
        · exact hC6 a b hab hbm haf hbf
    · intro y hy
      have hyl : y ∈ l := by
        have : y ∈ getE l 0 :: (downFuel lt m (swapL l 0 m) 0 m).1.dropLast :=
          List.mem_cons_of_mem _ hy
        exact hpermfull.subset this
      obtain ⟨k, hk, hkeq⟩ := List.getElem_of_mem hyl
      rw [← hkeq, ← getE_eq_getElem hk]
      exact hmin k hk

/-- `heap.Push` core: appending a key and sifting it up preserves the heap
invariant. -/
theorem push_spec (hA : Asymm lt) (hT : LeTrans lt) {l : List K} (x : K)
    (hwf : WfP lt l l.length) :
    (upL lt (l ++ [x]) l.length).length = l.length + 1 ∧
    List.Perm (upL lt (l ++ [x]) l.length) (l ++ [x]) ∧
    WfP lt (upL lt (l ++ [x]) l.length) (l.length + 1) := by
  have H1 : ∀ a b, IsChild a b → b < l.length + 1 → b ≠ l.length →
      lt (getE (l ++ [x]) b) (getE (l ++ [x]) a) = false := by
    intro a b hab hb hbl
    have hbl2 : b < l.length := by omega
    have hal : a < l.length := by have := hab.parent_lt; omega
    rw [getE_append hbl2, getE_append hal]
    exact hwf a b hab hbl2
  have H2 : ∀ c, IsChild l.length c → c < l.length + 1 →
      lt (getE (l ++ [x]) c) (getE (l ++ [x]) ((l.length-1)/2)) = false := by
    intro c hc hcn
    rcases hc with h | h <;> omega
  obtain ⟨h1, h2, _, h4⟩ :=
    upL_spec hA hT (l := l ++ [x]) (j := l.length) (n := l.length + 1)
      (by omega) (by simp) H1 H2
  exact ⟨by simpa using h1, h2, h4⟩

/-- Draining a heap by repeated `heap.Pop` yields a permutation of the keys
in outranking order (each popped key is not outranked by any later one). -/
theorem drainK_spec (hA : Asymm lt) (hT : LeTrans lt) :
    ∀ (fuel : Nat) (l : List K), l.length ≤ fuel → WfP lt l l.length →
      List.Perm (drainK lt fuel l) l ∧
      List.Pairwise (fun a b => lt b a = false) (drainK lt fuel l) := by
  intro fuel
  induction fuel with
  | zero =>
    intro l hf _
    have h : l = [] := List.length_eq_zero.mp (by omega)
    subst h
    exact ⟨List.Perm.refl _, List.Pairwise.nil⟩
  | succ f ih =>
    intro l hf hwf
    by_cases h0 : l.length = 0
    · have h : l = [] := List.length_eq_zero.mp h0
      subst h
      simp only [drainK, if_pos rfl]
      exact ⟨List.Perm.refl _, List.Pairwise.nil⟩
    · have h1 : 1 ≤ l.length := by omega
      obtain ⟨hrlen, hrperm, hrwf, hrmin⟩ := pop_spec hA hT h1 hwf
      simp only [drainK, if_neg h0]
      have hrest_wf :
          WfP lt (downL lt (swapL l 0 (l.length-1)) 0 (l.length-1)).1.dropLast
            (downL lt (swapL l 0 (l.length-1)) 0 (l.length-1)).1.dropLast.length := by
        rw [hrlen]
        exact hrwf
      obtain ⟨ihp, ihs⟩ :=
        ih (downL lt (swapL l 0 (l.length-1)) 0 (l.length-1)).1.dropLast
          (by omega) hrest_wf
      refine ⟨(ihp.cons _).trans hrperm, List.Pairwise.cons ?_ ihs⟩
      intro y hy
      exact hrmin y (ihp.mem_iff.mp hy)

/-- Truncating the last element of a heap leaves a heap. -/
theorem wfp_dropLast {l : List K} (hwf : WfP lt l l.length) :
    WfP lt l.dropLast l.dropLast.length := by
  intro a b hab hb
  rw [List.length_dropLast] at hb
  have hal := hab.parent_lt
  rw [getE_dropLast (by omega), getE_dropLast (by omega)]
  exact hwf a b hab (by omega)

/-- `heap.Remove` core (non-last case): swapping the doomed element with the
last one, re-heapifying at its slot within the shrunk range and truncating
preserves the heap invariant; the removed key is the one that was at `k`. -/
theorem remove_spec (hA : Asymm lt) (hT : LeTrans lt) {l : List K} {k : Nat}
    (hk : k < l.length) (hkne : k ≠ l.length - 1) (hwf : WfP lt l l.length) :
    (fixL lt (swapL l k (l.length - 1)) k (l.length - 1)).dropLast.length
        = l.length - 1 ∧
    List.Perm
      (getE l k :: (fixL lt (swapL l k (l.length - 1)) k (l.length - 1)).dropLast)
      l ∧
    WfP lt (fixL lt (swapL l k (l.length - 1)) k (l.length - 1)).dropLast
      (l.length - 1) := by
  obtain ⟨m, hmeq⟩ : ∃ m, l.length - 1 = m := ⟨_, rfl⟩
  have hkm : k < m := by omega
  have hmlen : m < l.length := by omega
  have hklen : k < l.length := hk
  have hswk : getE (swapL l k m) k = getE l m := by
    rw [getE_swapL hklen hmlen, if_neg (by omega : k ≠ m), if_pos rfl]
  have hswm : getE (swapL l k m) m = getE l k := by
    rw [getE_swapL hklen hmlen, if_pos rfl]
  have hswo : ∀ q, q ≠ k → q ≠ m → getE (swapL l k m) q = getE l q := by
    intro q hq1 hq2
    rw [getE_swapL hklen hmlen, if_neg hq2, if_neg hq1]
  have F1 : ∀ a b, IsChild a b → b < m → a ≠ k → b ≠ k →
      lt (getE (swapL l k m) b) (getE (swapL l k m) a) = false := by
    intro a b hab hb hak hbk
    have hal := hab.parent_lt
    rw [hswo b hbk (by omega), hswo a hak (by omega)]
    exact hwf a b hab (by omega)
  have F2 : ∀ c, IsChild k c → c < m → k ≠ 0 →
      lt (getE (swapL l k m) c) (getE (swapL l k m) ((k-1)/2)) = false := by
    intro c hc hcm hk0
    have hcg := hc.parent_lt
    rw [hswo c (by omega) (by omega), hswo ((k-1)/2) (by omega) (by omega)]
    have h1 : lt (getE l k) (getE l ((k-1)/2)) = false :=
      hwf _ k (isChild_parent (by omega)) hklen
    have h2 : lt (getE l c) (getE l k) = false := hwf k c hc (by omega)
    exact hT (getE l ((k-1)/2)) (getE l k) (getE l c) h1 h2
  obtain ⟨hflen, hfperm, hframe, hfwf⟩ :=
    fixL_spec hA hT hkm (by simp; omega) F1 F2
  rw [hmeq]
  have hflen2 : (fixL lt (swapL l k m) k m).length = l.length := by
    simpa using hflen
  have hgetm : getE (fixL lt (swapL l k m) k m) m = getE l k := by
    rw [hframe m (Nat.le_refl m), hswm]
  have hne : fixL lt (swapL l k m) k m ≠ [] := by
    intro h
    rw [h] at hflen2
    simp at hflen2
    omega
  have hdrop : (fixL lt (swapL l k m) k m).dropLast ++ [getE l k]
      = fixL lt (swapL l k m) k m := by
    have h2 := dropLast_append_getE hne
    rwa [hflen2, hmeq, hgetm] at h2
  have hlen3 : (fixL lt (swapL l k m) k m).dropLast.length = m := by
    rw [List.length_dropLast, hflen2, hmeq]
  refine ⟨hlen3, ?_, ?_⟩
  · have p1 : List.Perm ((fixL lt (swapL l k m) k m).dropLast ++ [getE l k]) l := by
      rw [hdrop]
      exact hfperm.trans (swapL_perm hklen hmlen)
    exact (List.perm_append_singleton _ _).symm.trans p1
  · intro a b hab hb
    have hal := hab.parent_lt
    rw [getE_dropLast (by omega), getE_dropLast (by omega)]
    exact hfwf a b hab hb

end CompositeLemmas

/-! ### Simulation: queue operations project to pure key-list operations -/

section Simulation

variable {T : Type} [Inhabited T]

@[simp] theorem length_setIdx (arena : List (Item T)) (id : Nat) (ix : Int) :
    (setIdx arena id ix).length = arena.length := by
  simp [setIdx]

theorem entryOf_setIdx (arena : List (Item T)) (id : Nat) (ix : Int) (q : Nat) :
    entryOf ((setIdx arena id ix).getD q default)
      = entryOf (arena.getD q default) := by
  by_cases hid : id < arena.length
  · by_cases hq : id = q
    · subst hq
      rw [setIdx, getD_modifyAt_self hid]
      rfl
    · rw [setIdx, getD_modifyAt_ne _ hq]
  · rw [setIdx, getD_modifyAt_oor _ (Nat.le_of_not_lt hid)]

theorem getD_setIdx_ne (arena : List (Item T)) {id q : Nat} (h : id ≠ q)
    (ix : Int) : (setIdx arena id ix).getD q default = arena.getD q default := by
  rw [setIdx, getD_modifyAt_ne _ h]

theorem index_setIdx_self (arena : List (Item T)) {id : Nat}
    (hid : id < arena.length) (ix : Int) :
    ((setIdx arena id ix).getD id default).index = ix := by
  rw [setIdx, getD_modifyAt_self hid]

@[simp] theorem length_entries (pq : PQ T) :
    (entries pq).length = pq.items.length := by
  simp [entries]

theorem getE_entries {pq : PQ T} {i : Nat} (hi : i < pq.items.length) :
    getE (entries pq) i = entryOf (pq.arena.getD (getE pq.items i) default) := by
  rw [entries, getE_eq_getElem (by simpa using hi), List.getElem_map,
    getE_eq_getElem hi]

theorem map_swapL {α β : Type} [Inhabited α] [Inhabited β] (f : α → β)
    {l : List α} {i j : Nat} (hi : i < l.length) (hj : j < l.length) :
    (swapL l i j).map f = swapL (l.map f) i j := by
  have hgi : f (getE l i) = getE (l.map f) i := by
    rw [getE_eq_getElem hi, getE_eq_getElem (by simpa using hi), List.getElem_map]
  have hgj : f (getE l j) = getE (l.map f) j := by
    rw [getE_eq_getElem hj, getE_eq_getElem (by simpa using hj), List.getElem_map]
  simp [swapL, hgi, hgj]

theorem nodup_getE_ne {l : List Nat} (hnd : l.Nodup) {i j : Nat}
    (hi : i < l.length) (hj : j < l.length) (hij : i ≠ j) :
    getE l i ≠ getE l j := by
  rw [getE_eq_getElem hi, getE_eq_getElem hj]
  intro h
  exact hij ((List.Nodup.getElem_inj_iff hnd).mp h)

theorem getE_mem {l : List Nat} {i : Nat} (hi : i < l.length) : getE l i ∈ l := by
  rw [getE_eq_getElem hi]
  exact List.getElem_mem hi

/-- `pqSwap` structural facts: fields, entries simulation, arena frame. -/
theorem pqSwap_facts (pq : PQ T) {i j : Nat} (hi : i < pq.items.length)
    (hj : j < pq.items.length) :
    (pqSwap pq i j).comparator = pq.comparator ∧
    (pqSwap pq i j).isMaxHeap = pq.isMaxHeap ∧
    (pqSwap pq i j).items = swapL pq.items i j ∧
    (pqSwap pq i j).arena.length = pq.arena.length ∧
    entries (pqSwap pq i j) = swapL (entries pq) i j ∧
    (∀ id, entryOf ((pqSwap pq i j).arena.getD id default)
      = entryOf (pq.arena.getD id default)) ∧
    (∀ id, id ∉ pq.items →
      (pqSwap pq i j).arena.getD id default = pq.arena.getD id default) := by
  refine ⟨rfl, rfl, rfl, by simp [pqSwap], ?_, ?_, ?_⟩
  · show (swapL pq.items i j).map _ = swapL (entries pq) i j
    have h1 : ∀ id : Nat,
        entryOf ((setIdx (setIdx pq.arena (getE (swapL pq.items i j) i) (i : Int))
            (getE (swapL pq.items i j) j) (j : Int)).getD id default)
          = entryOf (pq.arena.getD id default) := by
      intro id
      rw [entryOf_setIdx, entryOf_setIdx]
    calc (swapL pq.items i j).map (fun id =>
            entryOf ((setIdx (setIdx pq.arena (getE (swapL pq.items i j) i) (i : Int))
              (getE (swapL pq.items i j) j) (j : Int)).getD id default))
        = (swapL pq.items i j).map
            (fun id => entryOf (pq.arena.getD id default)) := by
          exact List.map_congr_left (fun a _ => h1 a)
      _ = swapL (entries pq) i j := map_swapL _ hi hj
  · intro id
    show entryOf ((setIdx (setIdx pq.arena (getE (swapL pq.items i j) i) (i : Int))
        (getE (swapL pq.items i j) j) (j : Int)).getD id default)
      = entryOf (pq.arena.getD id default)
    rw [entryOf_setIdx, entryOf_setIdx]
  · intro id hid
    have hmi : getE (swapL pq.items i j) i ∈ pq.items := by
      have := getE_mem (l := swapL pq.items i j) (i := i) (by simpa using hi)
      exact ((swapL_perm hi hj).mem_iff).mp this
    have hmj : getE (swapL pq.items i j) j ∈ pq.items := by
      have := getE_mem (l := swapL pq.items i j) (i := j) (by simpa using hj)
      exact ((swapL_perm hi hj).mem_iff).mp this
    show (setIdx (setIdx pq.arena (getE (swapL pq.items i j) i) (i : Int))
        (getE (swapL pq.items i j) j) (j : Int)).getD id default
      = pq.arena.getD id default
    have hne1 : getE (swapL pq.items i j) j ≠ id := by
      intro h
      exact hid (h ▸ hmj)
    have hne2 : getE (swapL pq.items i j) i ≠ id := by
      intro h
      exact hid (h ▸ hmi)
    rw [getD_setIdx_ne _ hne1 _, getD_setIdx_ne _ hne2 _]

/-- `pqSwap` preserves structural well-formedness. -/
theorem pqSwap_stateOK {pq : PQ T} {i j : Nat} (hi : i < pq.items.length)
    (hj : j < pq.items.length) (hS : StateOK pq) : StateOK (pqSwap pq i j) := by
  obtain ⟨hIds, hNd, hPos⟩ := hS
  obtain ⟨_, _, hits, halen, _, _, _⟩ := pqSwap_facts pq hi hj
  have hperm : List.Perm (pqSwap pq i j).items pq.items := by
    rw [hits]
    exact swapL_perm hi hj
  refine ⟨?_, hperm.symm.nodup hNd, ?_⟩
  · intro id hidm
    rw [halen]
    exact hIds id (hperm.subset hidm)
  · intro q hq
    have hqlen : q < pq.items.length := by
      have := hperm.length_eq
      omega
    have hIi : getE (swapL pq.items i j) i = getE pq.items j := by
      rw [getE_swapL hi hj]
      by_cases h : i = j
      · rw [if_pos h, h]
      · rw [if_neg h, if_pos rfl]
    have hIj : getE (swapL pq.items i j) j = getE pq.items i := by
      rw [getE_swapL hi hj, if_pos rfl]
    show ((setIdx (setIdx pq.arena (getE (swapL pq.items i j) i) (i : Int))
        (getE (swapL pq.items i j) j) (j : Int)).getD
          (getE (swapL pq.items i j) q) default).index = (q : Int)
    have hndsw : (swapL pq.items i j).Nodup := (swapL_perm hi hj).symm.nodup hNd
    have hmemi : getE (swapL pq.items i j) i ∈ pq.items := by
      rw [hIi]
      exact getE_mem hj
    have hmemj : getE (swapL pq.items i j) j ∈ pq.items := by
      rw [hIj]
      exact getE_mem hi
    by_cases hqj : q = j
    · rw [hqj]
      rw [index_setIdx_self _ (by simpa using hIds _ hmemj)]
    · have hqj' : getE (swapL pq.items i j) q ≠ getE (swapL pq.items i j) j :=
        nodup_getE_ne hndsw (by simpa using hqlen) (by simpa using hj) hqj
      rw [getD_setIdx_ne _ (Ne.symm hqj')]
      by_cases hqi : q = i
      · rw [hqi]
        rw [index_setIdx_self _ (by simpa using hIds _ hmemi)]
      · have hqi' : getE (swapL pq.items i j) q ≠ getE (swapL pq.items i j) i :=
          nodup_getE_ne hndsw (by simpa using hqlen) (by simpa using hi) hqi
        rw [getD_setIdx_ne _ (Ne.symm hqi')]
        rw [getE_swapL hi hj, if_neg hqj, if_neg hqi]
        exact hPos q hqlen

theorem ltP_congr {pq1 pq2 : PQ T} (h1 : pq1.comparator = pq2.comparator)
    (h2 : pq1.isMaxHeap = pq2.isMaxHeap) : ltP pq1 = ltP pq2 := by
  rw [ltP, ltP, h1, h2]

/-- `pqUpFuel` simulates `upFuel` on entries and only reshuffles the array
(ids permuted, arena `Index` fields of in-array items updated). -/
theorem pqUpFuel_facts :
    ∀ (fuel : Nat) (pq : PQ T) (j : Nat), j < pq.items.length →
      (pqUpFuel fuel pq j).comparator = pq.comparator ∧
      (pqUpFuel fuel pq j).isMaxHeap = pq.isMaxHeap ∧
      List.Perm (pqUpFuel fuel pq j).items pq.items ∧
      (pqUpFuel fuel pq j).arena.length = pq.arena.length ∧
      entries (pqUpFuel fuel pq j) = upFuel (ltP pq) fuel (entries pq) j ∧
      (∀ id, entryOf ((pqUpFuel fuel pq j).arena.getD id default)
        = entryOf (pq.arena.getD id default)) ∧
      (∀ id, id ∉ pq.items →
        (pqUpFuel fuel pq j).arena.getD id default = pq.arena.getD id default) ∧
      (StateOK pq → StateOK (pqUpFuel fuel pq j)) := by
  intro fuel
  induction fuel with
  | zero =>
    intro pq j _
    exact ⟨rfl, rfl, List.Perm.refl _, rfl, rfl, fun _ => rfl, fun _ _ => rfl,
      fun h => h⟩
  | succ f ih =>
    intro pq j hj
    by_cases hj0 : j = 0
    · subst hj0
      simp only [pqUpFuel, upFuel, if_pos rfl]
      exact ⟨rfl, rfl, List.Perm.refl _, rfl, rfl, fun _ => rfl, fun _ _ => rfl,
        fun h => h⟩
    · have hi_lt : (j-1)/2 < j := by omega
      have hi : (j-1)/2 < pq.items.length := by omega
      simp only [pqUpFuel, upFuel, if_neg hj0, lessAt]
      by_cases hg : ltP pq (getE (entries pq) j) (getE (entries pq) ((j-1)/2)) = true
      · rw [if_pos hg, if_pos hg]
        obtain ⟨hc, hm, hits, halen, hent, hfr, hout⟩ :=
          pqSwap_facts pq hi hj
        have hj' : (j-1)/2 < (pqSwap pq ((j-1)/2) j).items.length := by
          rw [hits]
          simpa using hi
        obtain ⟨ihc, ihm, ihp, ihl, ihe, ihf, iho, ihs⟩ :=
          ih (pqSwap pq ((j-1)/2) j) ((j-1)/2) hj'
        have hitsp : List.Perm (pqSwap pq ((j-1)/2) j).items pq.items := by
          rw [hits]
          exact swapL_perm hi hj
        refine ⟨ihc.trans hc, ihm.trans hm, ihp.trans hitsp, ihl.trans halen,
          ?_, ?_, ?_, ?_⟩
        · rw [ihe, hent, ltP_congr hc hm]
        · intro id
          rw [ihf id, hfr id]
        · intro id hid
          rw [iho id (fun hmem => hid (hitsp.subset hmem)), hout id hid]
        · intro hS
          exact ihs (pqSwap_stateOK hi hj hS)
      · rw [if_neg hg, if_neg hg]
        exact ⟨rfl, rfl, List.Perm.refl _, rfl, rfl, fun _ => rfl,
          fun _ _ => rfl, fun h => h⟩

/-- `pqDownFuel` simulates `downFuel` on entries (state and final position)
and only reshuffles the array. -/
theorem pqDownFuel_facts :
    ∀ (fuel : Nat) (pq : PQ T) (i n : Nat), n ≤ pq.items.length →
      (pqDownFuel fuel pq i n).1.comparator = pq.comparator ∧
      (pqDownFuel fuel pq i n).1.isMaxHeap = pq.isMaxHeap ∧
      List.Perm (pqDownFuel fuel pq i n).1.items pq.items ∧
      (pqDownFuel fuel pq i n).1.arena.length = pq.arena.length ∧
      entries (pqDownFuel fuel pq i n).1
        = (downFuel (ltP pq) fuel (entries pq) i n).1 ∧
      (pqDownFuel fuel pq i n).2 = (downFuel (ltP pq) fuel (entries pq) i n).2 ∧
      (∀ id, entryOf ((pqDownFuel fuel pq i n).1.arena.getD id default)
        = entryOf (pq.arena.getD id default)) ∧
      (∀ id, id ∉ pq.items →
        (pqDownFuel fuel pq i n).1.arena.getD id default
          = pq.arena.getD id default) ∧
      (StateOK pq → StateOK (pqDownFuel fuel pq i n).1) := by
  intro fuel
  induction fuel with
  | zero =>
    intro pq i n _
    exact ⟨rfl, rfl, List.Perm.refl _, rfl, rfl, rfl, fun _ => rfl,
      fun _ _ => rfl, fun h => h⟩
  | succ f ih =>
    intro pq i n hn
    by_cases hch : 2*i+1 < n
    · simp only [pqDownFuel, downFuel, if_pos hch, lessAt]
      have hj1 : 2*i+1 < pq.items.length := by omega
      obtain ⟨j, hjeq, hjch, hjn⟩ :
          ∃ j, (if 2*i+2 < n && ltP pq (getE (entries pq) (2*i+2))
                  (getE (entries pq) (2*i+1)) then 2*i+2 else 2*i+1) = j
            ∧ IsChild i j ∧ j < n := by
        by_cases hsel : (2*i+2 < n && ltP pq (getE (entries pq) (2*i+2))
            (getE (entries pq) (2*i+1))) = true
        · obtain ⟨h1, _⟩ := Bool.and_eq_true_iff.mp hsel
          exact ⟨2*i+2, if_pos hsel, Or.inr rfl, of_decide_eq_true h1⟩
        · exact ⟨2*i+1, if_neg hsel, Or.inl rfl, hch⟩
      rw [hjeq]
      have hjlen : j < pq.items.length := by omega
      have hilen : i < pq.items.length := by
        have := hjch.parent_lt
        omega
      by_cases hg : ltP pq (getE (entries pq) j) (getE (entries pq) i) = true
      · rw [if_pos hg, if_pos hg]
        obtain ⟨hc, hm, hits, halen, hent, hfr, hout⟩ :=
          pqSwap_facts pq hilen hjlen
        have hn' : n ≤ (pqSwap pq i j).items.length := by
          rw [hits]
          simpa using hn
        obtain ⟨ihc, ihm, ihp, ihl, ihe, ihfi, ihf, iho, ihs⟩ :=
          ih (pqSwap pq i j) j n hn'
        have hitsp : List.Perm (pqSwap pq i j).items pq.items := by
          rw [hits]
          exact swapL_perm hilen hjlen
        refine ⟨ihc.trans hc, ihm.trans hm, ihp.trans hitsp, ihl.trans halen,
          ?_, ?_, ?_, ?_, ?_⟩
        · rw [ihe, hent, ltP_congr hc hm]
        · rw [ihfi, hent, ltP_congr hc hm]
        · intro id
          rw [ihf id, hfr id]
        · intro id hid
          rw [iho id (fun hmem => hid (hitsp.subset hmem)), hout id hid]
        · intro hS
          exact ihs (pqSwap_stateOK hilen hjlen hS)
      · rw [if_neg hg, if_neg hg]
        exact ⟨rfl, rfl, List.Perm.refl _, rfl, rfl, rfl, fun _ => rfl,
          fun _ _ => rfl, fun h => h⟩
    · have h1 : pqDownFuel (f+1) pq i n = (pq, i) := by
        simp only [pqDownFuel, if_neg hch]
      have h2 : downFuel (ltP pq) (f+1) (entries pq) i n = (entries pq, i) := by
        simp only [downFuel, if_neg hch]
      rw [h1, h2]
      exact ⟨rfl, rfl, List.Perm.refl _, rfl, rfl, rfl, fun _ => rfl,
        fun _ _ => rfl, fun h => h⟩

/-- `rawPop` (the queue's own `Pop`): truncation plus marking the popped item
stale. -/
theorem rawPop_facts (pq : PQ T) (hne : 1 ≤ pq.items.length) :
    (rawPop pq).1.comparator = pq.comparator ∧
    (rawPop pq).1.isMaxHeap = pq.isMaxHeap ∧
    (rawPop pq).1.items = pq.items.dropLast ∧
    (rawPop pq).1.arena.length = pq.arena.length ∧
    entries (rawPop pq).1 = (entries pq).dropLast ∧
    (rawPop pq).2 = getE pq.items (pq.items.length - 1) ∧
    (∀ id, entryOf ((rawPop pq).1.arena.getD id default)
      = entryOf (pq.arena.getD id default)) ∧
    (∀ id, id ∉ pq.items →
      (rawPop pq).1.arena.getD id default = pq.arena.getD id default) ∧
    (StateOK pq → StateOK (rawPop pq).1) := by
  have hmem : getE pq.items (pq.items.length - 1) ∈ pq.items :=
    getE_mem (by omega)
  refine ⟨rfl, rfl, rfl, by simp [rawPop], ?_, rfl, ?_, ?_, ?_⟩
  · show pq.items.dropLast.map _ = _
    have h1 : ∀ q : Nat,
        entryOf ((setIdx pq.arena (getE pq.items (pq.items.length - 1))
            (-1)).getD q default)
          = entryOf (pq.arena.getD q default) := fun q => entryOf_setIdx _ _ _ _
    calc pq.items.dropLast.map (fun id =>
            entryOf ((setIdx pq.arena (getE pq.items (pq.items.length - 1))
              (-1)).getD id default))
        = pq.items.dropLast.map (fun id => entryOf (pq.arena.getD id default)) :=
          List.map_congr_left (fun a _ => h1 a)
      _ = (entries pq).dropLast := by
          rw [entries, List.map_dropLast]
  · intro id
    exact entryOf_setIdx _ _ _ _
  · intro id hid
    have hne : getE pq.items (pq.items.length - 1) ≠ id := by
      intro h
      rw [h] at hmem
      exact hid hmem
    exact getD_setIdx_ne _ hne _
  · intro ⟨hIds, hNd, hPos⟩
    refine ⟨?_, (List.dropLast_sublist _).nodup hNd, ?_⟩
    · intro id hidm
      show id < (setIdx pq.arena _ _).length
      rw [length_setIdx]
      exact hIds id ((List.dropLast_sublist _).subset hidm)
    · intro q hq
      have hq' : q < pq.items.length - 1 := by
        have h2 : (rawPop pq).1.items = pq.items.dropLast := rfl
        rw [h2, List.length_dropLast] at hq
        exact hq
      show ((setIdx pq.arena (getE pq.items (pq.items.length - 1)) (-1)).getD
        (getE pq.items.dropLast q) default).index = (q : Int)
      rw [getE_dropLast hq']
      have hne2 : getE pq.items (pq.items.length - 1) ≠ getE pq.items q :=
        nodup_getE_ne hNd (by omega) (by omega) (by omega)
      rw [getD_setIdx_ne _ hne2]
      exact hPos q (by omega)

/-- `heap.Push` on the queue state: appends the id, sets its `Index`, sifts
up; entries simulate a pure push unconditionally. -/
theorem heapPushPQ_facts (pq : PQ T) (id : Nat) (hid : id < pq.arena.length)
    (hnin : id ∉ pq.items) :
    (heapPushPQ pq id).comparator = pq.comparator ∧
    (heapPushPQ pq id).isMaxHeap = pq.isMaxHeap ∧
    List.Perm (heapPushPQ pq id).items (pq.items ++ [id]) ∧
    (heapPushPQ pq id).arena.length = pq.arena.length ∧
    entries (heapPushPQ pq id)
      = upL (ltP pq) (entries pq ++ [entryOf (pq.arena.getD id default)])
          pq.items.length ∧
    (∀ q, entryOf ((heapPushPQ pq id).arena.getD q default)
      = entryOf (pq.arena.getD q default)) ∧
    (∀ q, q ∉ pq.items → q ≠ id →
      (heapPushPQ pq id).arena.getD q default = pq.arena.getD q default) ∧
    (StateOK pq → StateOK (heapPushPQ pq id)) := by
  obtain ⟨pq1, hpq1⟩ : ∃ pq1, ({ pq with items := pq.items ++ [id], arena := setIdx pq.arena id (pq.items.length : Int) } : PQ T) = pq1 :=
    ⟨_, rfl⟩
  have h1_items : pq1.items = pq.items ++ [id] := by rw [← hpq1]
  have h1_arena : pq1.arena = setIdx pq.arena id (pq.items.length : Int) := by
    rw [← hpq1]
  have h1_cmp : pq1.comparator = pq.comparator := by rw [← hpq1]
  have h1_max : pq1.isMaxHeap = pq.isMaxHeap := by rw [← hpq1]
  have h1_len : pq1.items.length = pq.items.length + 1 := by
    rw [h1_items]; simp
  have h1_alen : pq1.arena.length = pq.arena.length := by
    rw [h1_arena]; simp
  have h1_entfr : ∀ q, entryOf (pq1.arena.getD q default)
      = entryOf (pq.arena.getD q default) := by
    intro q
    rw [h1_arena]
    exact entryOf_setIdx _ _ _ _
  have h1_entries : entries pq1
      = entries pq ++ [entryOf (pq.arena.getD id default)] := by
    rw [entries, h1_items, List.map_append]
    congr 1
    · exact List.map_congr_left (fun a _ => h1_entfr a)
    · simp only [List.map_cons, List.map_nil]
      rw [h1_entfr id]
  have hppq : heapPushPQ pq id
      = pqUpFuel (pq.items.length + 1) pq1 pq.items.length := by
    rw [heapPushPQ, hpq1]
    rfl
  have hjb : pq.items.length < pq1.items.length := by omega
  obtain ⟨uc, um, up, ul, ue, uf, uo, us⟩ :=
    pqUpFuel_facts (pq.items.length + 1) pq1 pq.items.length hjb
  rw [hppq]
  have hltP : ltP pq1 = ltP pq := ltP_congr h1_cmp h1_max
  refine ⟨uc.trans h1_cmp, um.trans h1_max, ?_, ul.trans h1_alen, ?_, ?_, ?_, ?_⟩
  · exact (up.trans (by rw [h1_items]))
  · show entries (pqUpFuel (pq.items.length + 1) pq1 pq.items.length) = _
    rw [ue, hltP, h1_entries, upL]
  · intro q
    rw [uf q, h1_entfr q]
  · intro q hq hqid
    have hq1 : q ∉ pq1.items := by
      rw [h1_items]
      simp only [List.mem_append, List.mem_singleton]
      rintro (h | h)
      · exact hq h
      · exact hqid h
    rw [uo q hq1, h1_arena, getD_setIdx_ne _ (Ne.symm hqid) _]
  · intro hS
    obtain ⟨hIds, hNd, hPos⟩ := hS
    have hS1 : StateOK pq1 := by
      refine ⟨?_, ?_, ?_⟩
      · intro q hq
        rw [h1_items] at hq
        rw [h1_alen]
        rcases List.mem_append.mp hq with h | h
        · exact hIds q h
        · rw [List.mem_singleton.mp h]
          exact hid
      · rw [h1_items]
        exact (List.perm_append_singleton id pq.items).symm.nodup
          (List.nodup_cons.mpr ⟨hnin, hNd⟩)
      · intro q hq
        rw [h1_len] at hq
        rw [h1_items, h1_arena]
        by_cases hqn : q = pq.items.length
        · rw [hqn]
          have : getE (pq.items ++ [id]) pq.items.length = id := by
            rw [getE_eq_getElem (by simp),
              List.getElem_append_right (Nat.le_refl _)]
            simp
          rw [this, index_setIdx_self _ hid]
        · have hql : q < pq.items.length := by omega
          rw [getE_append hql]
          have hne : id ≠ getE pq.items q :=
            fun h => hnin (h ▸ getE_mem hql)
          rw [getD_setIdx_ne _ hne]
          exact hPos q hql
    exact us hS1

/-- `Enqueue` facts: fresh handle equal to the arena size, fields and
structure preserved, arena frame outside the new id, entries simulate a pure
push of `(v, p)` when ids are valid. -/
theorem Enqueue_facts (pq : PQ T) (v : T) (p : Int)
    (hfresh : pq.arena.length ∉ pq.items) :
    (Enqueue pq v p).2 = pq.arena.length ∧
    (Enqueue pq v p).1.comparator = pq.comparator ∧
    (Enqueue pq v p).1.isMaxHeap = pq.isMaxHeap ∧
    List.Perm (Enqueue pq v p).1.items (pq.items ++ [pq.arena.length]) ∧
    (Enqueue pq v p).1.arena.length = pq.arena.length + 1 ∧
    (IdsOK pq → entries (Enqueue pq v p).1
      = upL (ltP pq) (entries pq ++ [(v, p)]) pq.items.length) ∧
    (∀ q, q ≠ pq.arena.length →
      entryOf ((Enqueue pq v p).1.arena.getD q default)
        = entryOf (pq.arena.getD q default)) ∧
    entryOf ((Enqueue pq v p).1.arena.getD pq.arena.length default) = (v, p) ∧
    (∀ q, q ∉ pq.items → q ≠ pq.arena.length →
      (Enqueue pq v p).1.arena.getD q default = pq.arena.getD q default) ∧
    (StateOK pq → StateOK (Enqueue pq v p).1) := by
  obtain ⟨pqA, hpqA⟩ :
      ∃ pqA, ({ pq with arena := pq.arena ++ [⟨v, p, 0⟩] } : PQ T) = pqA :=
    ⟨_, rfl⟩
  have hA_items : pqA.items = pq.items := by rw [← hpqA]
  have hA_arena : pqA.arena = pq.arena ++ [⟨v, p, 0⟩] := by rw [← hpqA]
  have hA_cmp : pqA.comparator = pq.comparator := by rw [← hpqA]
  have hA_max : pqA.isMaxHeap = pq.isMaxHeap := by rw [← hpqA]
  have hA_alen : pqA.arena.length = pq.arena.length + 1 := by
    rw [hA_arena]; simp
  have hgetid : pqA.arena.getD pq.arena.length default = ⟨v, p, 0⟩ := by
    rw [hA_arena, List.getD_eq_getElem _ _ (by simp),
      List.getElem_append_right (Nat.le_refl _)]
    simp
  have hgetlt : ∀ q, q < pq.arena.length →
      pqA.arena.getD q default = pq.arena.getD q default := by
    intro q hq
    rw [hA_arena, List.getD_eq_getElem _ _ (by simp; omega),
      List.getElem_append_left hq, List.getD_eq_getElem _ _ hq]
  have hgetne : ∀ q, q ≠ pq.arena.length →
      pqA.arena.getD q default = pq.arena.getD q default := by
    intro q hq
    by_cases hlt : q < pq.arena.length
    · exact hgetlt q hlt
    · rw [List.getD_eq_default _ _ (by omega), List.getD_eq_default _ _ (by omega)]
  have henq : Enqueue pq v p = (heapPushPQ pqA pq.arena.length, pq.arena.length) := by
    rw [Enqueue, hpqA]
  have hid : pq.arena.length < pqA.arena.length := by omega
  have hnin : pq.arena.length ∉ pqA.items := by
    rw [hA_items]
    exact hfresh
  rw [henq]
  obtain ⟨pc, pm, pp, pl, pe, pf, po, ps⟩ :=
    heapPushPQ_facts pqA pq.arena.length hid hnin
  refine ⟨rfl, pc.trans hA_cmp, pm.trans hA_max, ?_, pl.trans hA_alen,
    ?_, ?_, ?_, ?_, ?_⟩
  · rw [hA_items] at pp
    exact pp
  · intro hIds
    rw [pe, hgetid, ltP_congr hA_cmp hA_max, hA_items]
    have hEnt : entries pqA = entries pq := by
      rw [entries, entries, hA_items]
      refine List.map_congr_left ?_
      intro a ha
      rw [hgetlt a (hIds a ha)]
    rw [hEnt]
    rfl
  · intro q hq
    rw [pf q, hgetne q hq]
  · rw [pf _, hgetid]
    rfl
  · intro q hq hqid
    rw [po q (by rw [hA_items]; exact hq) hqid, hgetne q hqid]
  · intro hS
    obtain ⟨hIds, hNd, hPos⟩ := hS
    refine ps ⟨?_, by rw [hA_items]; exact hNd, ?_⟩
    · intro q hq
      rw [hA_items] at hq
      rw [hA_alen]
      have := hIds q hq
      omega
    · intro q hq
      rw [hA_items] at hq ⊢
      rw [hgetlt _ (hIds _ (getE_mem hq))]
      exact hPos q hq
/-- `heap.Pop` on the queue state: swap root/last, sift down in the shrunk
range, raw-pop; entries simulate the pure pop unconditionally. -/
theorem heapPopPQ_facts (pq : PQ T) (hne : 1 ≤ pq.items.length) :
    (heapPopPQ pq).1.comparator = pq.comparator ∧
    (heapPopPQ pq).1.isMaxHeap = pq.isMaxHeap ∧
    (heapPopPQ pq).1.items.length = pq.items.length - 1 ∧
    (heapPopPQ pq).1.arena.length = pq.arena.length ∧
    entries (heapPopPQ pq).1
      = (downL (ltP pq) (swapL (entries pq) 0 (pq.items.length - 1)) 0
          (pq.items.length - 1)).1.dropLast ∧
    entryOf ((heapPopPQ pq).1.arena.getD (heapPopPQ pq).2 default)
      = getE (downL (ltP pq) (swapL (entries pq) 0 (pq.items.length - 1)) 0
          (pq.items.length - 1)).1 (pq.items.length - 1) ∧
    (∀ q, entryOf ((heapPopPQ pq).1.arena.getD q default)
      = entryOf (pq.arena.getD q default)) ∧
    (∀ q, q ∉ pq.items →
      (heapPopPQ pq).1.arena.getD q default = pq.arena.getD q default) ∧
    (∀ q, q ∈ (heapPopPQ pq).1.items → q ∈ pq.items) ∧
    (StateOK pq → StateOK (heapPopPQ pq).1) := by
  obtain ⟨n1, hn1⟩ : ∃ n1, pq.items.length - 1 = n1 := ⟨_, rfl⟩
  have h0 : 0 < pq.items.length := by omega
  have hn1lt : n1 < pq.items.length := by omega
  obtain ⟨sc, sm, sits, salen, sent, sfr, sout⟩ := pqSwap_facts pq h0 hn1lt
  have hpop : heapPopPQ pq = rawPop (pqDownFuel n1 (pqSwap pq 0 n1) 0 n1).1 := by
    rw [heapPopPQ, hn1]
    rfl
  have hn1le : n1 ≤ (pqSwap pq 0 n1).items.length := by
    rw [sits]
    simp
    omega
  obtain ⟨dc, dm, dp, dl, de, dfi, df, dout, ds⟩ :=
    pqDownFuel_facts n1 (pqSwap pq 0 n1) 0 n1 hn1le
  have hswperm : List.Perm (pqSwap pq 0 n1).items pq.items := by
    rw [sits]
    exact swapL_perm h0 hn1lt
  have hlen2 : (pqDownFuel n1 (pqSwap pq 0 n1) 0 n1).1.items.length
      = pq.items.length := by
    rw [dp.length_eq, hswperm.length_eq]
  have hne2 : 1 ≤ (pqDownFuel n1 (pqSwap pq 0 n1) 0 n1).1.items.length := by
    omega
  obtain ⟨rc, rm, rits, ralen, rent, rid, rfr, rout, rs⟩ :=
    rawPop_facts (pqDownFuel n1 (pqSwap pq 0 n1) 0 n1).1 hne2
  have hEnt2 : entries (pqDownFuel n1 (pqSwap pq 0 n1) 0 n1).1
      = (downL (ltP pq) (swapL (entries pq) 0 n1) 0 n1).1 := by
    rw [de, sent, ltP_congr sc sm, downL]
  rw [hpop, hn1]
  refine ⟨rc.trans (dc.trans sc), rm.trans (dm.trans sm), ?_, ?_, ?_, ?_, ?_, ?_, ?_, ?_⟩
  · rw [rits, List.length_dropLast, hlen2]
    omega
  · rw [ralen, dl, salen]
  · rw [rent, hEnt2]
  · rw [rid, rfr]
    have hq : (pqDownFuel n1 (pqSwap pq 0 n1) 0 n1).1.items.length - 1 = n1 := by
      omega
    rw [hq, ← getE_entries (by omega), hEnt2]
  · intro q
    rw [rfr q, df q, sfr q]
  · intro q hq
    have hq1 : q ∉ (pqSwap pq 0 n1).items := fun h => hq (hswperm.subset h)
    have hq2 : q ∉ (pqDownFuel n1 (pqSwap pq 0 n1) 0 n1).1.items :=
      fun h => hq1 (dp.subset h)
    rw [rout q hq2, dout q hq1, sout q hq]
  · intro q hq
    rw [rits] at hq
    exact hswperm.subset (dp.subset ((List.dropLast_sublist _).subset hq))
  · intro hS
    exact rs (ds (pqSwap_stateOK h0 hn1lt hS))

/-- `Dequeue` on an empty queue is an exact no-op with the not-found
signal. -/
theorem Dequeue_empty {pq : PQ T} (h : pq.items.length = 0) :
    Dequeue pq = (pq, default, false) := by
  rw [Dequeue, if_pos h]

/-- `Dequeue` on a non-empty queue: `heap.Pop`, returning the popped item's
value with `true`. -/
theorem Dequeue_nonempty {pq : PQ T} (h : 1 ≤ pq.items.length) :
    Dequeue pq = ((heapPopPQ pq).1,
      ((heapPopPQ pq).1.arena.getD (heapPopPQ pq).2 default).value, true) := by
  rw [Dequeue, if_neg (by omega)]
/-- `heap.Fix` on the queue state simulates `fixL` on entries. -/
theorem heapFixPQ_facts (pq : PQ T) (i : Nat) (hi : i < pq.items.length) :
    (heapFixPQ pq i).comparator = pq.comparator ∧
    (heapFixPQ pq i).isMaxHeap = pq.isMaxHeap ∧
    List.Perm (heapFixPQ pq i).items pq.items ∧
    (heapFixPQ pq i).arena.length = pq.arena.length ∧
    entries (heapFixPQ pq i) = fixL (ltP pq) (entries pq) i pq.items.length ∧
    (∀ q, entryOf ((heapFixPQ pq i).arena.getD q default)
      = entryOf (pq.arena.getD q default)) ∧
    (∀ q, q ∉ pq.items →
      (heapFixPQ pq i).arena.getD q default = pq.arena.getD q default) ∧
    (StateOK pq → StateOK (heapFixPQ pq i)) := by
  obtain ⟨dc, dm, dp, dl, de, dfi, df, dout, ds⟩ :=
    pqDownFuel_facts pq.items.length pq i pq.items.length (Nat.le_refl _)
  have hfix : heapFixPQ pq i
      = (if i < (pqDownFuel pq.items.length pq i pq.items.length).2
         then (pqDownFuel pq.items.length pq i pq.items.length).1
         else pqUp (pqDownFuel pq.items.length pq i pq.items.length).1 i) := by
    rw [heapFixPQ]
    rfl
  rw [hfix]
  by_cases hbr : i < (pqDownFuel pq.items.length pq i pq.items.length).2
  · rw [if_pos hbr]
    have hfixL : fixL (ltP pq) (entries pq) i pq.items.length
        = (downFuel (ltP pq) pq.items.length (entries pq) i pq.items.length).1 := by
      simp only [fixL, downL]
      rw [if_pos (by rw [← dfi]; exact hbr)]
    rw [hfixL]
    exact ⟨dc, dm, dp, dl, de, df, dout, ds⟩
  · rw [if_neg hbr]
    have hfixL : fixL (ltP pq) (entries pq) i pq.items.length
        = upFuel (ltP pq) (i+1)
            (downFuel (ltP pq) pq.items.length (entries pq) i pq.items.length).1 i := by
      simp only [fixL, downL]
      rw [if_neg (by rw [← dfi]; exact hbr)]
      rfl
    have hi2 : i < (pqDownFuel pq.items.length pq i pq.items.length).1.items.length := by
      rw [dp.length_eq]
      exact hi
    obtain ⟨uc, um, up, ul, ue, uf, uo, us⟩ :=
      pqUpFuel_facts (i+1) (pqDownFuel pq.items.length pq i pq.items.length).1 i hi2
    have hupeq : pqUp (pqDownFuel pq.items.length pq i pq.items.length).1 i
        = pqUpFuel (i+1) (pqDownFuel pq.items.length pq i pq.items.length).1 i := rfl
    rw [hupeq, hfixL]
    refine ⟨uc.trans dc, um.trans dm, up.trans dp, ul.trans dl, ?_, ?_, ?_, ?_⟩
    · rw [ue, de, ltP_congr dc dm]
    · intro q
      rw [uf q, df q]
    · intro q hq
      have hq1 : q ∉ (pqDownFuel pq.items.length pq i pq.items.length).1.items :=
        fun h => hq (dp.subset h)
      rw [uo q hq1, dout q hq]
    · intro hS
      exact us (ds hS)

/-- `UpdatePriority` with a stale handle (index out of bounds) is an exact
no-op on the whole state. -/
theorem UpdatePriority_stale {pq : PQ T} {id : Nat} {p : Int}
    (h : (pq.arena.getD id default).index < 0 ∨
      (pq.items.length : Int) ≤ (pq.arena.getD id default).index) :
    UpdatePriority pq id p = pq := by
  rw [UpdatePriority, if_pos h]

/-- `Remove` with a stale handle returns the not-found signal and leaves the
state unchanged. -/
theorem Remove_stale {pq : PQ T} {id : Nat}
    (h : (pq.arena.getD id default).index < 0 ∨
      (pq.items.length : Int) ≤ (pq.arena.getD id default).index) :
    Remove pq id = (pq, default, false) := by
  rw [Remove, if_pos h]

/-- `Clear` just truncates the backing array: the arena — and with it every
issued handle's `Index` field — is untouched (`heap.Init` of an empty array
is the identity). -/
theorem Clear_eq (pq : PQ T) :
    Clear pq = { pq with items := [] } := by
  have h : (({ pq with items := ([] : List Nat) } : PQ T)).items.length / 2 = 0 := by
    simp
  rw [Clear, heapInitPQ, h, initAux]

/-- `UpdatePriority` with a live handle: sets the stored priority, then
`heap.Fix`.  Structure is preserved; entries simulate `fixL` on the entry
list with the handle's slot updated (or unchanged, for an aliased stale
handle that slipped past the bounds check). -/
theorem UpdatePriority_live_facts (pq : PQ T) (id : Nat) (p : Int)
    (hix : ¬((pq.arena.getD id default).index < 0 ∨
      (pq.items.length : Int) ≤ (pq.arena.getD id default).index)) :
    (UpdatePriority pq id p).comparator = pq.comparator ∧
    (UpdatePriority pq id p).isMaxHeap = pq.isMaxHeap ∧
    List.Perm (UpdatePriority pq id p).items pq.items ∧
    (UpdatePriority pq id p).arena.length = pq.arena.length ∧
    (∀ q, q ≠ id → entryOf ((UpdatePriority pq id p).arena.getD q default)
      = entryOf (pq.arena.getD q default)) ∧
    (id < pq.arena.length →
      entryOf ((UpdatePriority pq id p).arena.getD id default)
        = ((pq.arena.getD id default).value, p)) ∧
    (∀ q, q ∉ pq.items → q ≠ id →
      (UpdatePriority pq id p).arena.getD q default = pq.arena.getD q default) ∧
    (StateOK pq → StateOK (UpdatePriority pq id p)) ∧
    (id ∉ pq.items →
      entries (UpdatePriority pq id p)
        = fixL (ltP pq) (entries pq)
            (pq.arena.getD id default).index.toNat pq.items.length) ∧
    (id ∈ pq.items → StateOK pq →
      entries (UpdatePriority pq id p)
        = fixL (ltP pq)
            ((entries pq).set (pq.arena.getD id default).index.toNat
              ((pq.arena.getD id default).value, p))
            (pq.arena.getD id default).index.toNat pq.items.length) := by
  obtain ⟨ix, hixdef⟩ : ∃ ix, (pq.arena.getD id default).index = ix := ⟨_, rfl⟩
  have hix0 : 0 ≤ ix := by omega
  have hixlt : ix.toNat < pq.items.length := by omega
  obtain ⟨pq1, hpq1⟩ : ∃ pq1, ({ pq with arena := modifyAt pq.arena id (fun it => { it with priority := p }) } : PQ T) = pq1 := ⟨_, rfl⟩
  have h1_items : pq1.items = pq.items := by rw [← hpq1]
  have h1_arena : pq1.arena = modifyAt pq.arena id (fun it => { it with priority := p }) := by rw [← hpq1]
  have h1_cmp : pq1.comparator = pq.comparator := by rw [← hpq1]
  have h1_max : pq1.isMaxHeap = pq.isMaxHeap := by rw [← hpq1]
  have h1_alen : pq1.arena.length = pq.arena.length := by
    rw [h1_arena]
    simp
  have hupd : UpdatePriority pq id p = heapFixPQ pq1 ix.toNat := by
    rw [UpdatePriority, if_neg hix, hpq1, hixdef]
  have h1_ne : ∀ q, q ≠ id →
      pq1.arena.getD q default = pq.arena.getD q default := by
    intro q hq
    rw [h1_arena, getD_modifyAt_ne _ (Ne.symm hq)]
  have h1_id : id < pq.arena.length →
      pq1.arena.getD id default
        = { pq.arena.getD id default with priority := p } := by
    intro hlt
    rw [h1_arena, getD_modifyAt_self hlt]
  obtain ⟨fc, fm, fp, fl, fe, ff, fo, fs⟩ :=
    heapFixPQ_facts pq1 ix.toNat (by rw [h1_items]; exact hixlt)
  rw [hupd, hixdef]
  have hltP1 : ltP pq1 = ltP pq := ltP_congr h1_cmp h1_max
  have hS1 : StateOK pq → StateOK pq1 := by
    intro ⟨hIds, hNd, hPos⟩
    refine ⟨?_, by rw [h1_items]; exact hNd, ?_⟩
    · intro q hq
      rw [h1_items] at hq
      rw [h1_alen]
      exact hIds q hq
    · intro q hq
      rw [h1_items] at hq ⊢
      by_cases hqid : getE pq.items q = id
      · rw [hqid, h1_arena]
        by_cases hlt : id < pq.arena.length
        · rw [getD_modifyAt_self hlt]
          have := hPos q hq
          rw [hqid] at this
          exact this
        · rw [getD_modifyAt_oor _ (by omega)]
          have := hPos q hq
          rw [hqid] at this
          exact this
      · rw [h1_ne _ hqid]
        exact hPos q hq
  refine ⟨fc.trans h1_cmp, fm.trans h1_max, by rw [h1_items] at fp; exact fp,
    fl.trans h1_alen, ?_, ?_, ?_, ?_, ?_, ?_⟩
  · intro q hq
    rw [ff q, h1_ne q hq]
  · intro hlt
    rw [ff id, h1_id hlt]
    rfl
  · intro q hq hqid
    have hq1 : q ∉ pq1.items := by rw [h1_items]; exact hq
    rw [fo q hq1, h1_ne q hqid]
  · intro hS
    exact fs (hS1 hS)
  · intro hnin
    have hE1 : entries pq1 = entries pq := by
      rw [entries, entries, h1_items]
      refine List.map_congr_left ?_
      intro a ha
      rw [h1_ne a (fun h => hnin (h ▸ ha))]
    rw [fe, hE1, hltP1, h1_items]
  · intro hmem hS
    obtain ⟨hIds, hNd, hPos⟩ := hS
    have hid_lt : id < pq.arena.length := hIds id hmem
    have hat : getE pq.items ix.toNat = id := by
      obtain ⟨m, hm, hmeq⟩ := List.getElem_of_mem hmem
      have h2 := hPos m hm
      rw [getE_eq_getElem hm, hmeq] at h2
      rw [hixdef] at h2
      have hmix : m = ix.toNat := by omega
      rw [← hmix, getE_eq_getElem hm, hmeq]
    have hE1 : entries pq1
        = (entries pq).set ix.toNat ((pq.arena.getD id default).value, p) := by
      refine List.ext_getElem (by simp [entries, h1_items]) ?_
      intro r hr1 hr2
      have hrlen : r < pq.items.length := by
        simpa [entries, h1_items] using hr1
      rw [← getE_eq_getElem, ← getE_eq_getElem,
        getE_entries (by rw [h1_items]; exact hrlen)]
      by_cases hr : r = ix.toNat
      · rw [hr, getE_eq_getElem (l := (entries pq).set ix.toNat _)
          (by simpa using hixlt), List.getElem_set_self]
        rw [h1_items, hat, h1_id hid_lt]
        rfl
      · rw [getE_eq_getElem (l := (entries pq).set ix.toNat _)
          (by simpa using hrlen), List.getElem_set_ne (Ne.symm hr),
          ← getE_eq_getElem (by simpa using hrlen),
          getE_entries hrlen, h1_items]
        have hne : getE pq.items r ≠ id := by
          intro h
          have := nodup_getE_ne hNd hrlen hixlt hr
          rw [h, hat] at this
          exact this rfl
        rw [h1_ne _ hne]
    rw [fe, hE1, hltP1, h1_items]
/-- `heap.Remove` at the last index: plain `rawPop`. -/
theorem heapRemovePQ_last_facts (pq : PQ T) {k : Nat} (hk : k < pq.items.length)
    (hkn : k = pq.items.length - 1) :
    heapRemovePQ pq k = rawPop pq := by
  rw [heapRemovePQ, if_pos hkn]

/-- `heap.Remove` at a non-last index: swap with the last element, re-heapify
at `k` in the shrunk range, `rawPop`; entries simulate swap-fix-truncate. -/
theorem heapRemovePQ_mid_facts (pq : PQ T) {k : Nat} (hk : k < pq.items.length)
    (hkn : k ≠ pq.items.length - 1) :
    (heapRemovePQ pq k).1.comparator = pq.comparator ∧
    (heapRemovePQ pq k).1.isMaxHeap = pq.isMaxHeap ∧
    (heapRemovePQ pq k).1.items.length = pq.items.length - 1 ∧
    (heapRemovePQ pq k).1.arena.length = pq.arena.length ∧
    entries (heapRemovePQ pq k).1
      = (fixL (ltP pq) (swapL (entries pq) k (pq.items.length - 1)) k
          (pq.items.length - 1)).dropLast ∧
    entryOf ((heapRemovePQ pq k).1.arena.getD (heapRemovePQ pq k).2 default)
      = getE (fixL (ltP pq) (swapL (entries pq) k (pq.items.length - 1)) k
          (pq.items.length - 1)) (pq.items.length - 1) ∧
    (∀ q, entryOf ((heapRemovePQ pq k).1.arena.getD q default)
      = entryOf (pq.arena.getD q default)) ∧
    (∀ q, q ∉ pq.items →
      (heapRemovePQ pq k).1.arena.getD q default = pq.arena.getD q default) ∧
    (∀ q, q ∈ (heapRemovePQ pq k).1.items → q ∈ pq.items) ∧
    (StateOK pq → StateOK (heapRemovePQ pq k).1) := by
  obtain ⟨n1, hn1⟩ : ∃ n1, pq.items.length - 1 = n1 := ⟨_, rfl⟩
  have hkn1 : k < n1 := by omega
  have hn1lt : n1 < pq.items.length := by omega
  obtain ⟨sc, sm, sits, salen, sent, sfr, sout⟩ := pqSwap_facts pq hk hn1lt
  have hswperm : List.Perm (pqSwap pq k n1).items pq.items := by
    rw [sits]
    exact swapL_perm hk hn1lt
  have hn1le : n1 ≤ (pqSwap pq k n1).items.length := by
    rw [hswperm.length_eq]
    omega
  obtain ⟨dc, dm, dp, dl, de, dfi, df, dout, ds⟩ :=
    pqDownFuel_facts n1 (pqSwap pq k n1) k n1 hn1le
  have hrem : heapRemovePQ pq k
      = rawPop (if k < (pqDownFuel n1 (pqSwap pq k n1) k n1).2
          then (pqDownFuel n1 (pqSwap pq k n1) k n1).1
          else pqUp (pqDownFuel n1 (pqSwap pq k n1) k n1).1 k) := by
    rw [heapRemovePQ, if_neg (by omega : ¬ k = pq.items.length - 1), hn1]
    rfl
  obtain ⟨pq3, hpq3⟩ : ∃ pq3, (if k < (pqDownFuel n1 (pqSwap pq k n1) k n1).2
      then (pqDownFuel n1 (pqSwap pq k n1) k n1).1
      else pqUp (pqDownFuel n1 (pqSwap pq k n1) k n1).1 k) = pq3 := ⟨_, rfl⟩
  have hfixEq :
      pq3.comparator = pq.comparator ∧
      pq3.isMaxHeap = pq.isMaxHeap ∧
      List.Perm pq3.items pq.items ∧
      pq3.arena.length = pq.arena.length ∧
      entries pq3
        = fixL (ltP pq) (swapL (entries pq) k n1) k n1 ∧
      (∀ q, entryOf (pq3.arena.getD q default)
        = entryOf (pq.arena.getD q default)) ∧
      (∀ q, q ∉ pq.items → pq3.arena.getD q default = pq.arena.getD q default) ∧
      (StateOK pq → StateOK pq3) := by
    rw [← hpq3]
    by_cases hbr : k < (pqDownFuel n1 (pqSwap pq k n1) k n1).2
    · rw [if_pos hbr]
      have hfixL : fixL (ltP pq) (swapL (entries pq) k n1) k n1
          = (downFuel (ltP pq) n1 (swapL (entries pq) k n1) k n1).1 := by
        simp only [fixL, downL]
        rw [if_pos (by
          have h2 := dfi
          rw [sent, ltP_congr sc sm] at h2
          rw [← h2]
          exact hbr)]
      refine ⟨dc.trans sc, dm.trans sm, dp.trans hswperm, dl.trans salen, ?_,
        ?_, ?_, ?_⟩
      · rw [de, sent, ltP_congr sc sm, hfixL]
      · intro q
        rw [df q, sfr q]
      · intro q hq
        rw [dout q (fun h => hq (hswperm.subset h)), sout q hq]
      · intro hS
        exact ds (pqSwap_stateOK hk hn1lt hS)
    · rw [if_neg hbr]
      have hk3 : k < (pqDownFuel n1 (pqSwap pq k n1) k n1).1.items.length := by
        rw [dp.length_eq, hswperm.length_eq]
        omega
      obtain ⟨uc, um, up, ul, ue, uf, uo, us⟩ :=
        pqUpFuel_facts (k+1) (pqDownFuel n1 (pqSwap pq k n1) k n1).1 k hk3
      have hfixL : fixL (ltP pq) (swapL (entries pq) k n1) k n1
          = upFuel (ltP pq) (k+1)
              (downFuel (ltP pq) n1 (swapL (entries pq) k n1) k n1).1 k := by
        simp only [fixL, downL]
        rw [if_neg (by
          have h2 := dfi
          rw [sent, ltP_congr sc sm] at h2
          rw [← h2]
          exact hbr)]
        rfl
      have hupeq : pqUp (pqDownFuel n1 (pqSwap pq k n1) k n1).1 k
          = pqUpFuel (k+1) (pqDownFuel n1 (pqSwap pq k n1) k n1).1 k := rfl
      rw [hupeq]
      refine ⟨uc.trans (dc.trans sc), um.trans (dm.trans sm),
        up.trans (dp.trans hswperm), ul.trans (dl.trans salen), ?_, ?_, ?_, ?_⟩
      · rw [ue, de, sent, ltP_congr dc dm, ltP_congr sc sm, hfixL]
      · intro q
        rw [uf q, df q, sfr q]
      · intro q hq
        have hq1 : q ∉ (pqSwap pq k n1).items := fun h => hq (hswperm.subset h)
        rw [uo q (fun h => hq1 (dp.subset h)), dout q hq1, sout q hq]
      · intro hS
        exact us (ds (pqSwap_stateOK hk hn1lt hS))
  obtain ⟨pc, pm, pp, pl, pe, pf, po, ps⟩ := hfixEq
  have hlen3 : pq3.items.length = pq.items.length := pp.length_eq
  have hne3 : 1 ≤ pq3.items.length := by omega
  obtain ⟨rc, rm, rits, ralen, rent, rid, rfr, rout, rs⟩ := rawPop_facts pq3 hne3
  have hremEq : heapRemovePQ pq k = rawPop pq3 := by
    rw [hrem, hpq3]
  rw [hremEq, hn1]
  refine ⟨rc.trans pc, rm.trans pm, ?_, ralen.trans pl, ?_, ?_, ?_, ?_, ?_, ?_⟩
  · rw [rits, List.length_dropLast, hlen3]
    omega
  · rw [rent, pe]
  · rw [rid, rfr]
    have hq : pq3.items.length - 1 = n1 := by omega
    rw [hq, ← getE_entries (by omega), pe]
  · intro q
    rw [rfr q, pf q]
  · intro q hq
    have hq3 : q ∉ pq3.items := fun h => hq (pp.subset h)
    rw [rout q hq3, po q hq]
  · intro q hq
    rw [rits] at hq
    exact pp.subset ((List.dropLast_sublist _).subset hq)
  · intro hS
    exact rs (ps hS)

/-- `Remove` with a live handle delegates to `heap.Remove` at the handle's
index. -/
theorem Remove_live_eq (pq : PQ T) (id : Nat)
    (hix : ¬((pq.arena.getD id default).index < 0 ∨
      (pq.items.length : Int) ≤ (pq.arena.getD id default).index)) :
    Remove pq id
      = ((heapRemovePQ pq (pq.arena.getD id default).index.toNat).1,
         ((heapRemovePQ pq (pq.arena.getD id default).index.toNat).1.arena.getD
            (heapRemovePQ pq (pq.arena.getD id default).index.toNat).2
            default).value,
         true) := by
  rw [Remove, if_neg hix]

/-- `Peek` on an empty queue. -/
theorem Peek_empty {pq : PQ T} (h : pq.items.length = 0) :
    Peek pq = (default, false) := by
  rw [Peek, if_pos h]

/-- `Peek` on a non-empty queue returns the root's value with `true` and, by
construction, does not touch the state. -/
theorem Peek_nonempty {pq : PQ T} (h : 1 ≤ pq.items.length) :
    Peek pq = ((pq.arena.getD (getE pq.items 0) default).value, true) := by
  rw [Peek, if_neg (by omega)]
theorem getE_set_ne {K : Type} [Inhabited K] {l : List K} {i k : Nat}
    (h : k ≠ i) (a : K) : getE (l.set i a) k = getE l k := by
  by_cases hk : k < l.length
  · rw [getE_eq_getElem (by simpa using hk), getE_eq_getElem hk,
      List.getElem_set_ne (Ne.symm h)]
  · rw [getE_of_le (by simpa using Nat.le_of_not_lt hk),
      getE_of_le (Nat.le_of_not_lt hk)]

/-- Every public operation keeps the ordering configuration. -/
theorem applyOp_fields (pq : PQ T) (op : Op T) :
    (applyOp pq op).comparator = pq.comparator ∧
    (applyOp pq op).isMaxHeap = pq.isMaxHeap := by
  cases op with
  | enq v p =>
    by_cases hfresh : pq.arena.length ∈ pq.items
    · -- cannot use the fresh-id lemma; unfold directly: the result goes
      -- through `pqUpFuel`, which preserves the fields.
      show (heapPushPQ { pq with arena := pq.arena ++ [⟨v, p, 0⟩] }
          pq.arena.length).comparator = pq.comparator ∧
        (heapPushPQ { pq with arena := pq.arena ++ [⟨v, p, 0⟩] }
          pq.arena.length).isMaxHeap = pq.isMaxHeap
      obtain ⟨pq1, hpq1⟩ : ∃ pq1, ({ pq with arena := pq.arena ++ [⟨v, p, 0⟩] } : PQ T) = pq1 := ⟨_, rfl⟩
      have hcmp : pq1.comparator = pq.comparator := by rw [← hpq1]
      have hmax : pq1.isMaxHeap = pq.isMaxHeap := by rw [← hpq1]
      rw [hpq1]
      obtain ⟨pq2, hpq2⟩ : ∃ pq2, ({ pq1 with items := pq1.items ++ [pq.arena.length], arena := setIdx pq1.arena pq.arena.length (pq1.items.length : Int) } : PQ T) = pq2 := ⟨_, rfl⟩
      have hcmp2 : pq2.comparator = pq1.comparator := by rw [← hpq2]
      have hmax2 : pq2.isMaxHeap = pq1.isMaxHeap := by rw [← hpq2]
      have hlen2 : pq1.items.length < pq2.items.length := by
        rw [← hpq2]
        simp
      obtain ⟨uc, um, _, _, _, _, _, _⟩ :=
        pqUpFuel_facts (pq1.items.length + 1) pq2 pq1.items.length hlen2
      have hpush : heapPushPQ pq1 pq.arena.length
          = pqUpFuel (pq1.items.length + 1) pq2 pq1.items.length := by
        rw [heapPushPQ, hpq2]
        rfl
      rw [hpush]
      exact ⟨uc.trans (hcmp2.trans hcmp), um.trans (hmax2.trans hmax)⟩
    · obtain ⟨_, ec, em, _⟩ := Enqueue_facts pq v p hfresh
      exact ⟨ec, em⟩
  | deq =>
    by_cases h : pq.items.length = 0
    · rw [show applyOp pq Op.deq = (Dequeue pq).1 from rfl, Dequeue_empty h]
      exact ⟨rfl, rfl⟩
    · rw [show applyOp pq Op.deq = (Dequeue pq).1 from rfl,
        Dequeue_nonempty (by omega)]
      obtain ⟨pc, pm, _⟩ := heapPopPQ_facts pq (by omega)
      exact ⟨pc, pm⟩
  | upd id p =>
    by_cases h : (pq.arena.getD id default).index < 0 ∨
        (pq.items.length : Int) ≤ (pq.arena.getD id default).index
    · rw [show applyOp pq (Op.upd id p) = UpdatePriority pq id p from rfl,
        UpdatePriority_stale h]
      exact ⟨rfl, rfl⟩
    · obtain ⟨uc, um, _⟩ := UpdatePriority_live_facts pq id p h
      exact ⟨uc, um⟩
  | rem id =>
    by_cases h : (pq.arena.getD id default).index < 0 ∨
        (pq.items.length : Int) ≤ (pq.arena.getD id default).index
    · rw [show applyOp pq (Op.rem id) = (Remove pq id).1 from rfl,
        Remove_stale h]
      exact ⟨rfl, rfl⟩
    · rw [show applyOp pq (Op.rem id) = (Remove pq id).1 from rfl,
        Remove_live_eq pq id h]
      have hix : (pq.arena.getD id default).index.toNat < pq.items.length := by
        omega
      by_cases hkn : (pq.arena.getD id default).index.toNat = pq.items.length - 1
      · rw [heapRemovePQ_last_facts pq hix hkn]
        obtain ⟨rc, rm, _⟩ := rawPop_facts pq (by omega)
        exact ⟨rc, rm⟩
      · obtain ⟨rc, rm, _⟩ := heapRemovePQ_mid_facts pq hix hkn
        exact ⟨rc, rm⟩
  | clearAll =>
    rw [show applyOp pq Op.clearAll = Clear pq from rfl, Clear_eq]
    exact ⟨rfl, rfl⟩

/-- Every public operation preserves structural well-formedness. -/
theorem applyOp_stateOK (pq : PQ T) (op : Op T) (hS : StateOK pq) :
    StateOK (applyOp pq op) := by
  cases op with
  | enq v p =>
    have hfresh : pq.arena.length ∉ pq.items := by
      intro hmem
      exact absurd (hS.1 _ hmem) (by omega)
    obtain ⟨_, _, _, _, _, _, _, _, _, es⟩ := Enqueue_facts pq v p hfresh
    exact es hS
  | deq =>
    by_cases h : pq.items.length = 0
    · rw [show applyOp pq Op.deq = (Dequeue pq).1 from rfl, Dequeue_empty h]
      exact hS
    · rw [show applyOp pq Op.deq = (Dequeue pq).1 from rfl,
        Dequeue_nonempty (by omega)]
      obtain ⟨_, _, _, _, _, _, _, _, _, ps⟩ := heapPopPQ_facts pq (by omega)
      exact ps hS
  | upd id p =>
    by_cases h : (pq.arena.getD id default).index < 0 ∨
        (pq.items.length : Int) ≤ (pq.arena.getD id default).index
    · rw [show applyOp pq (Op.upd id p) = UpdatePriority pq id p from rfl,
        UpdatePriority_stale h]
      exact hS
    · obtain ⟨_, _, _, _, _, _, _, us, _, _⟩ := UpdatePriority_live_facts pq id p h
      exact us hS
  | rem id =>
    by_cases h : (pq.arena.getD id default).index < 0 ∨
        (pq.items.length : Int) ≤ (pq.arena.getD id default).index
    · rw [show applyOp pq (Op.rem id) = (Remove pq id).1 from rfl,
        Remove_stale h]
      exact hS
    · rw [show applyOp pq (Op.rem id) = (Remove pq id).1 from rfl,
        Remove_live_eq pq id h]
      have hix : (pq.arena.getD id default).index.toNat < pq.items.length := by
        omega
      by_cases hkn : (pq.arena.getD id default).index.toNat = pq.items.length - 1
      · rw [heapRemovePQ_last_facts pq hix hkn]
        obtain ⟨_, _, _, _, _, _, _, _, rs⟩ := rawPop_facts pq (by omega)
        exact rs hS
      · obtain ⟨_, _, _, _, _, _, _, _, _, rs⟩ := heapRemovePQ_mid_facts pq hix hkn
        exact rs hS
  | clearAll =>
    rw [show applyOp pq Op.clearAll = Clear pq from rfl, Clear_eq]
    refine ⟨?_, ?_, ?_⟩
    · intro q hq
      simp at hq
    · simp
    · intro q hq
      simp at hq
/-- Every public operation preserves the heap invariant (under the total
preorder contract on the active ordering, and structural well-formedness). -/
theorem applyOp_heapWf (pq : PQ T) (op : Op T) (hA : Asymm (ltP pq))
    (hT : LeTrans (ltP pq)) (hS : StateOK pq) (hW : HeapWf pq) :
    HeapWf (applyOp pq op) := by
  have hWE : WfP (ltP pq) (entries pq) (entries pq).length := by
    rw [length_entries]
    exact hW
  cases op with
  | enq v p =>
    have hfresh : pq.arena.length ∉ pq.items := by
      intro hmem
      exact absurd (hS.1 _ hmem) (by omega)
    obtain ⟨_, ec, em, ep, _, ee, _⟩ := Enqueue_facts pq v p hfresh
    obtain ⟨_, _, hwfp⟩ := push_spec hA hT ((v, p)) hWE
    show WfP (ltP (Enqueue pq v p).1) (entries (Enqueue pq v p).1)
      (Enqueue pq v p).1.items.length
    rw [ltP_congr ec em, ee hS.1, ep.length_eq]
    rw [length_entries] at hwfp
    simpa using hwfp
  | deq =>
    by_cases h : pq.items.length = 0
    · rw [show applyOp pq Op.deq = (Dequeue pq).1 from rfl, Dequeue_empty h]
      exact hW
    · rw [show applyOp pq Op.deq = (Dequeue pq).1 from rfl,
        Dequeue_nonempty (by omega)]
      obtain ⟨pc, pm, plen, _, pe, _⟩ := heapPopPQ_facts pq (by omega)
      obtain ⟨_, _, hwfp, _⟩ := pop_spec hA hT (l := entries pq)
        (by rw [length_entries]; omega) hWE
      show WfP (ltP (heapPopPQ pq).1) (entries (heapPopPQ pq).1)
        (heapPopPQ pq).1.items.length
      rw [ltP_congr pc pm, pe, plen]
      rw [length_entries] at hwfp
      exact hwfp
  | upd id p =>
    by_cases h : (pq.arena.getD id default).index < 0 ∨
        (pq.items.length : Int) ≤ (pq.arena.getD id default).index
    · rw [show applyOp pq (Op.upd id p) = UpdatePriority pq id p from rfl,
        UpdatePriority_stale h]
      exact hW
    · obtain ⟨uc, um, up, _, _, _, _, _, ue1, ue2⟩ :=
        UpdatePriority_live_facts pq id p h
      have hixlt : (pq.arena.getD id default).index.toNat < pq.items.length := by
        omega
      show WfP (ltP (UpdatePriority pq id p)) (entries (UpdatePriority pq id p))
        (UpdatePriority pq id p).items.length
      rw [ltP_congr uc um, up.length_eq]
      by_cases hmem : id ∈ pq.items
      · rw [ue2 hmem hS]
        have hlenset : ((entries pq).set (pq.arena.getD id default).index.toNat
            ((pq.arena.getD id default).value, p)).length = pq.items.length := by
          simp
        have hF1 : ∀ a b, IsChild a b → b < pq.items.length →
            a ≠ (pq.arena.getD id default).index.toNat →
            b ≠ (pq.arena.getD id default).index.toNat →
            ltP pq (getE ((entries pq).set (pq.arena.getD id default).index.toNat
              ((pq.arena.getD id default).value, p)) b)
              (getE ((entries pq).set (pq.arena.getD id default).index.toNat
                ((pq.arena.getD id default).value, p)) a) = false := by
          intro a b hab hb hai hbi
          rw [getE_set_ne hbi, getE_set_ne hai]
          exact hW a b hab hb
        have hF2 : ∀ c, IsChild (pq.arena.getD id default).index.toNat c →
            c < pq.items.length → (pq.arena.getD id default).index.toNat ≠ 0 →
            ltP pq (getE ((entries pq).set (pq.arena.getD id default).index.toNat
              ((pq.arena.getD id default).value, p)) c)
              (getE ((entries pq).set (pq.arena.getD id default).index.toNat
                ((pq.arena.getD id default).value, p))
                (((pq.arena.getD id default).index.toNat - 1)/2)) = false := by
          intro c hc hcn h0
          have hcg := hc.parent_lt
          rw [getE_set_ne (by omega), getE_set_ne (by omega)]
          have h1 := hW _ _ (isChild_parent (j := (pq.arena.getD id default).index.toNat) (by omega)) hixlt
          have h2 := hW _ c hc hcn
          exact hT _ _ _ h1 h2
        obtain ⟨_, _, _, hwfp⟩ := fixL_spec hA hT
          (l := (entries pq).set (pq.arena.getD id default).index.toNat
            ((pq.arena.getD id default).value, p))
          (i := (pq.arena.getD id default).index.toNat)
          (n := pq.items.length) hixlt (by rw [hlenset]) hF1 hF2
        exact hwfp
      · rw [ue1 hmem]
        have hF1 : ∀ a b, IsChild a b → b < pq.items.length →
            a ≠ (pq.arena.getD id default).index.toNat →
            b ≠ (pq.arena.getD id default).index.toNat →
            ltP pq (getE (entries pq) b) (getE (entries pq) a) = false :=
          fun a b hab hb _ _ => hW a b hab hb
        have hF2 : ∀ c, IsChild (pq.arena.getD id default).index.toNat c →
            c < pq.items.length → (pq.arena.getD id default).index.toNat ≠ 0 →
            ltP pq (getE (entries pq) c)
              (getE (entries pq)
                (((pq.arena.getD id default).index.toNat - 1)/2)) = false := by
          intro c hc hcn h0
          have h1 := hW _ _ (isChild_parent (j := (pq.arena.getD id default).index.toNat) (by omega)) hixlt
          have h2 := hW _ c hc hcn
          exact hT _ _ _ h1 h2
        obtain ⟨_, _, _, hwfp⟩ := fixL_spec hA hT
          (l := entries pq) (i := (pq.arena.getD id default).index.toNat)
          (n := pq.items.length) hixlt (by rw [length_entries]) hF1 hF2
        exact hwfp
  | rem id =>
    by_cases h : (pq.arena.getD id default).index < 0 ∨
        (pq.items.length : Int) ≤ (pq.arena.getD id default).index
    · rw [show applyOp pq (Op.rem id) = (Remove pq id).1 from rfl,
        Remove_stale h]
      exact hW
    · rw [show applyOp pq (Op.rem id) = (Remove pq id).1 from rfl,
        Remove_live_eq pq id h]
      have hixlt : (pq.arena.getD id default).index.toNat < pq.items.length := by
        omega
      by_cases hkn : (pq.arena.getD id default).index.toNat = pq.items.length - 1
      · rw [heapRemovePQ_last_facts pq hixlt hkn]
        obtain ⟨rc, rm, rits, _, rent, _⟩ := rawPop_facts pq (by omega)
        show WfP (ltP (rawPop pq).1) (entries (rawPop pq).1)
          (rawPop pq).1.items.length
        rw [ltP_congr rc rm, rent, rits, List.length_dropLast]
        have := wfp_dropLast hWE
        rw [List.length_dropLast, length_entries] at this
        exact this
      · obtain ⟨rc, rm, rlen, _, rent, _⟩ := heapRemovePQ_mid_facts pq hixlt hkn
        obtain ⟨_, _, hwfp⟩ := remove_spec hA hT
          (l := entries pq) (k := (pq.arena.getD id default).index.toNat)
          (by rw [length_entries]; exact hixlt)
          (by rw [length_entries]; exact hkn) hWE
        show WfP (ltP (heapRemovePQ pq (pq.arena.getD id default).index.toNat).1)
          (entries (heapRemovePQ pq (pq.arena.getD id default).index.toNat).1)
          (heapRemovePQ pq (pq.arena.getD id default).index.toNat).1.items.length
        rw [ltP_congr rc rm, rent, rlen]
        rw [length_entries] at hwfp
        exact hwfp
  | clearAll =>
    rw [show applyOp pq Op.clearAll = Clear pq from rfl, Clear_eq]
    intro a b hab hb
    simp at hb
/-- Running any operation sequence keeps the ordering configuration. -/
theorem runOps_fields : ∀ (ops : List (Op T)) (pq : PQ T),
    (runOps pq ops).comparator = pq.comparator ∧
    (runOps pq ops).isMaxHeap = pq.isMaxHeap := by
  intro ops
  induction ops with
  | nil => exact fun pq => ⟨rfl, rfl⟩
  | cons op ops ih =>
    intro pq
    obtain ⟨h1, h2⟩ := applyOp_fields pq op
    obtain ⟨h3, h4⟩ := ih (applyOp pq op)
    exact ⟨h3.trans h1, h4.trans h2⟩

/-- Running any operation sequence preserves structural well-formedness. -/
theorem runOps_stateOK : ∀ (ops : List (Op T)) (pq : PQ T), StateOK pq →
    StateOK (runOps pq ops) := by
  intro ops
  induction ops with
  | nil => exact fun pq h => h
  | cons op ops ih =>
    intro pq hS
    exact ih (applyOp pq op) (applyOp_stateOK pq op hS)

/-- Running any operation sequence preserves the heap invariant. -/
theorem runOps_heapWf : ∀ (ops : List (Op T)) (pq : PQ T),
    Asymm (ltP pq) → LeTrans (ltP pq) → StateOK pq → HeapWf pq →
    HeapWf (runOps pq ops) := by
  intro ops
  induction ops with
  | nil => exact fun pq _ _ _ h => h
  | cons op ops ih =>
    intro pq hA hT hS hW
    obtain ⟨h1, h2⟩ := applyOp_fields pq op
    have hltP : ltP (applyOp pq op) = ltP pq := ltP_congr h1 h2
    refine ih (applyOp pq op) ?_ ?_ (applyOp_stateOK pq op hS)
      (applyOp_heapWf pq op hA hT hS hW)
    · rw [hltP]
      exact hA
    · rw [hltP]
      exact hT

/-- A consumed handle stays consumed across every later operation: its
`Index` field stays `-1` and its item never re-enters the array. -/
theorem applyOp_consumed (pq : PQ T) (op : Op T) (id : Nat) (hS : StateOK pq)
    (hC : Consumed pq id) : Consumed (applyOp pq op) id := by
  obtain ⟨hCidx, hCnin⟩ := hC
  have hdefidx : ((default : Item T)).index = 0 := rfl
  have hidlt : id < pq.arena.length := by
    by_contra hcon
    rw [List.getD_eq_default _ _ (Nat.le_of_not_lt hcon), hdefidx] at hCidx
    exact absurd hCidx (by decide)
  cases op with
  | enq v p =>
    have hfresh : pq.arena.length ∉ pq.items := by
      intro hmem
      exact absurd (hS.1 _ hmem) (by omega)
    obtain ⟨_, _, _, ep, _, _, _, _, eout, _⟩ := Enqueue_facts pq v p hfresh
    rw [show applyOp pq (Op.enq v p) = (Enqueue pq v p).1 from rfl]
    constructor
    · rw [eout id hCnin (by omega), hCidx]
    · intro hmem
      have := ep.subset hmem
      rcases List.mem_append.mp this with h | h
      · exact hCnin h
      · rw [List.mem_singleton.mp h] at hidlt
        omega
  | deq =>
    by_cases h : pq.items.length = 0
    · rw [show applyOp pq Op.deq = (Dequeue pq).1 from rfl, Dequeue_empty h]
      exact ⟨hCidx, hCnin⟩
    · rw [show applyOp pq Op.deq = (Dequeue pq).1 from rfl,
        Dequeue_nonempty (by omega)]
      obtain ⟨_, _, _, _, _, _, _, pout, psub, _⟩ := heapPopPQ_facts pq (by omega)
      exact ⟨by rw [pout id hCnin, hCidx], fun hmem => hCnin (psub id hmem)⟩
  | upd id2 p =>
    by_cases h : (pq.arena.getD id2 default).index < 0 ∨
        (pq.items.length : Int) ≤ (pq.arena.getD id2 default).index
    · rw [show applyOp pq (Op.upd id2 p) = UpdatePriority pq id2 p from rfl,
        UpdatePriority_stale h]
      exact ⟨hCidx, hCnin⟩
    · have hne : id ≠ id2 := by
        intro heq
        rw [← heq, hCidx] at h
        exact h (Or.inl (by decide))
      obtain ⟨_, _, up, _, _, _, uout, _, _, _⟩ :=
        UpdatePriority_live_facts pq id2 p h
      rw [show applyOp pq (Op.upd id2 p) = UpdatePriority pq id2 p from rfl]
      exact ⟨by rw [uout id hCnin hne, hCidx],
        fun hmem => hCnin (up.subset hmem)⟩
  | rem id2 =>
    by_cases h : (pq.arena.getD id2 default).index < 0 ∨
        (pq.items.length : Int) ≤ (pq.arena.getD id2 default).index
    · rw [show applyOp pq (Op.rem id2) = (Remove pq id2).1 from rfl,
        Remove_stale h]
      exact ⟨hCidx, hCnin⟩
    · rw [show applyOp pq (Op.rem id2) = (Remove pq id2).1 from rfl,
        Remove_live_eq pq id2 h]
      have hix : (pq.arena.getD id2 default).index.toNat < pq.items.length := by
        omega
      by_cases hkn : (pq.arena.getD id2 default).index.toNat
          = pq.items.length - 1
      · rw [heapRemovePQ_last_facts pq hix hkn]
        obtain ⟨_, _, rits, _, _, _, _, rout, _⟩ := rawPop_facts pq (by omega)
        refine ⟨by rw [rout id hCnin, hCidx], ?_⟩
        intro hmem
        rw [rits] at hmem
        exact hCnin ((List.dropLast_sublist _).subset hmem)
      · obtain ⟨_, _, _, _, _, _, _, rout, rsub, _⟩ :=
          heapRemovePQ_mid_facts pq hix hkn
        exact ⟨by rw [rout id hCnin, hCidx], fun hmem => hCnin (rsub id hmem)⟩
  | clearAll =>
    rw [show applyOp pq Op.clearAll = Clear pq from rfl, Clear_eq]
    exact ⟨hCidx, by simp⟩

theorem runOps_consumed : ∀ (ops : List (Op T)) (pq : PQ T) (id : Nat),
    StateOK pq → Consumed pq id → Consumed (runOps pq ops) id := by
  intro ops
  induction ops with
  | nil => exact fun pq id _ h => h
  | cons op ops ih =>
    intro pq id hS hC
    exact ih (applyOp pq op) id (applyOp_stateOK pq op hS)
      (applyOp_consumed pq op id hS hC)

/-- The constructors produce the empty state with the chosen policy. -/
theorem mkQueue_eq (cmp : Option (T → T → Int)) (isMax : Bool) :
    mkQueue cmp isMax
      = ({ arena := [], items := [], comparator := cmp, isMaxHeap := isMax } : PQ T) := by
  have h : (({ arena := [], items := [], comparator := cmp, isMaxHeap := isMax } : PQ T)).items.length / 2 = 0 := by
    simp
  rw [mkQueue, heapInitPQ, h, initAux]

theorem mkQueue_stateOK (cmp : Option (T → T → Int)) (isMax : Bool) :
    StateOK (mkQueue (T := T) cmp isMax) := by
  rw [mkQueue_eq]
  exact ⟨fun q hq => by simp at hq, by simp, fun q hq => by simp at hq⟩

theorem mkQueue_heapWf (cmp : Option (T → T → Int)) (isMax : Bool) :
    HeapWf (mkQueue (T := T) cmp isMax) := by
  rw [mkQueue_eq]
  intro a b hab hb
  simp at hb
/-- The `down` loop touches only positions in `[i, n)` (unconditional). -/
theorem downFuel_frame {K : Type} [Inhabited K] {lt : K → K → Bool} :
    ∀ (fuel : Nat) (l : List K) (i n k : Nat), n ≤ l.length → k < i ∨ n ≤ k →
      getE (downFuel lt fuel l i n).1 k = getE l k := by
  intro fuel
  induction fuel with
  | zero => intro l i n k _ _; rfl
  | succ f ih =>
    intro l i n k hn hk
    by_cases hch : 2*i+1 < n
    · simp only [downFuel, if_pos hch]
      by_cases hg : lt (getE l (if 2*i+2 < n && lt (getE l (2*i+2)) (getE l (2*i+1)) then 2*i+2 else 2*i+1)) (getE l i) = true
      · rw [if_pos hg]
        obtain ⟨j, hjeq, hij, hjn⟩ :
            ∃ j, (if 2*i+2 < n && lt (getE l (2*i+2)) (getE l (2*i+1))
                  then 2*i+2 else 2*i+1) = j ∧ i < j ∧ j < n := by
          by_cases hsel : (2*i+2 < n && lt (getE l (2*i+2)) (getE l (2*i+1))) = true
          · exact ⟨2*i+2, if_pos hsel, by omega,
              of_decide_eq_true (Bool.and_eq_true_iff.mp hsel).1⟩
          · exact ⟨2*i+1, if_neg hsel, by omega, hch⟩
        rw [hjeq]
        rw [ih (swapL l i j) j n k (by simpa using hn) (by omega)]
        rw [getE_swapL (by omega) (by omega), if_neg (by omega : k ≠ j),
          if_neg (by omega : k ≠ i)]
      · rw [if_neg hg]
    · have hres : downFuel lt (f+1) l i n = (l, i) := by
        simp only [downFuel, if_neg hch]
      rw [hres]

/-- Draining the queue by `heap.Pop`s simulates the pure key drain. -/
theorem drainEntries_sim : ∀ (fuel : Nat) (pq : PQ T),
    drainEntries fuel pq = drainK (ltP pq) fuel (entries pq) := by
  intro fuel
  induction fuel with
  | zero => intro pq; rfl
  | succ f ih =>
    intro pq
    by_cases h : pq.items.length = 0
    · have e1 : drainEntries (f+1) pq = [] := by
        simp [drainEntries, h]
      have e2 : drainK (ltP pq) (f+1) (entries pq) = [] := by
        simp [drainK, length_entries, h]
      rw [e1, e2]
    · have h1 : ¬ (entries pq).length = 0 := by
        rw [length_entries]
        exact h
      simp only [drainEntries, drainK, if_neg h, if_neg h1, length_entries]
      obtain ⟨pc, pm, plen, _, pe, pent, _⟩ := heapPopPQ_facts pq (by omega)
      congr 1
      · rw [pent]
        rw [downL, downFuel_frame _ _ _ _ _ (by simp) (by omega)]
        rw [getE_swapL (l := entries pq) (by rw [length_entries]; omega)
          (by rw [length_entries]; omega), if_pos rfl]
      · rw [ih (heapPopPQ pq).1, pe, ltP_congr pc pm]

/-- Successive `Dequeue` results are the values of the drained entries, each
with the `true` flag. -/
theorem drainDequeue_map : ∀ (fuel : Nat) (pq : PQ T),
    drainDequeue fuel pq = (drainEntries fuel pq).map (fun e => (e.1, true)) := by
  intro fuel
  induction fuel with
  | zero => intro pq; rfl
  | succ f ih =>
    intro pq
    by_cases h : pq.items.length = 0
    · simp only [drainDequeue, drainEntries, if_pos h, List.map_nil]
    · simp only [drainDequeue, drainEntries, if_neg h, List.map_cons]
      rw [Dequeue_nonempty (by omega)]
      rw [ih (heapPopPQ pq).1]
      rfl

/-- The built-in numeric ordering is asymmetric in both modes. -/
theorem asymm_builtin (isMax : Bool) : Asymm (ltB (T := T) none isMax) := by
  intro a b hab
  cases isMax <;> simp [ltB] at hab ⊢ <;> omega

/-- The complement of the built-in numeric ordering is transitive in both
modes. -/
theorem leTrans_builtin (isMax : Bool) : LeTrans (ltB (T := T) none isMax) := by
  intro a b c h1 h2
  cases isMax <;> simp [ltB] at h1 h2 ⊢ <;> omega

theorem enqueueAll_eq_runOps : ∀ (xs : List (T × Int)) (pq : PQ T),
    enqueueAll pq xs = runOps pq (xs.map (fun e => Op.enq e.1 e.2)) := by
  intro xs
  induction xs with
  | nil => intro pq; rfl
  | cons x xs ih =>
    intro pq
    obtain ⟨v, p⟩ := x
    simp only [enqueueAll, List.map_cons, runOps]
    exact ih (Enqueue pq v p).1

theorem enqueueAll_size : ∀ (xs : List (T × Int)) (pq : PQ T),
    StateOK pq → (enqueueAll pq xs).items.length = pq.items.length + xs.length := by
  intro xs
  induction xs with
  | nil => intro pq _; rfl
  | cons x xs ih =>
    intro pq hS
    obtain ⟨v, p⟩ := x
    have hfresh : pq.arena.length ∉ pq.items := by
      intro hmem
      exact absurd (hS.1 _ hmem) (by omega)
    obtain ⟨_, _, _, ep, _, _, _, _, _, es⟩ := Enqueue_facts pq v p hfresh
    show (enqueueAll (Enqueue pq v p).1 xs).items.length = _
    rw [ih (Enqueue pq v p).1 (es hS), ep.length_eq]
    simp
    omega
theorem ltP_mkQueue (cmp : Option (T → T → Int)) (isMax : Bool) :
    ltP (mkQueue (T := T) cmp isMax) = ltB cmp isMax := by
  rw [mkQueue_eq]
  rfl

/-- For both built-in modes: draining a queue built by enqueues yields keys
sorted by the active ordering, and drains everything. -/
theorem drain_builtin_sorted (isMax : Bool) (xs : List (T × Int)) :
    List.Pairwise (fun a b : T × Int => ltB (T := T) none isMax b a = false)
      (drainEntries (Size (enqueueAll (mkQueue none isMax) xs))
        (enqueueAll (mkQueue none isMax) xs)) ∧
    (drainEntries (Size (enqueueAll (mkQueue none isMax) xs))
      (enqueueAll (mkQueue none isMax) xs)).length = xs.length := by
  have hS0 := mkQueue_stateOK (T := T) none isMax
  have hW0 := mkQueue_heapWf (T := T) none isMax
  have heq := enqueueAll_eq_runOps xs (mkQueue (T := T) none isMax)
  have hS : StateOK (enqueueAll (mkQueue none isMax) xs) := by
    rw [heq]
    exact runOps_stateOK _ _ hS0
  have hA0 : Asymm (ltP (mkQueue (T := T) none isMax)) := by
    rw [ltP_mkQueue]
    exact asymm_builtin isMax
  have hT0 : LeTrans (ltP (mkQueue (T := T) none isMax)) := by
    rw [ltP_mkQueue]
    exact leTrans_builtin isMax
  have hW : HeapWf (enqueueAll (mkQueue none isMax) xs) := by
    rw [heq]
    exact runOps_heapWf _ _ hA0 hT0 hS0 hW0
  have hltP : ltP (enqueueAll (mkQueue (T := T) none isMax) xs)
      = ltB none isMax := by
    rw [heq, ltP_congr (runOps_fields _ _).1 (runOps_fields _ _).2, ltP_mkQueue]
  have hsize : Size (enqueueAll (mkQueue (T := T) none isMax) xs) = xs.length := by
    show (enqueueAll _ _).items.length = _
    rw [enqueueAll_size xs _ hS0, mkQueue_eq]
    simp
  have hdk := drainEntries_sim
    (Size (enqueueAll (mkQueue (T := T) none isMax) xs))
    (enqueueAll (mkQueue none isMax) xs)
  have hWE : WfP (ltB (T := T) none isMax)
      (entries (enqueueAll (mkQueue none isMax) xs))
      (entries (enqueueAll (mkQueue none isMax) xs)).length := by
    rw [← hltP, length_entries]
    exact hW
  obtain ⟨hperm, hsorted⟩ := drainK_spec (asymm_builtin isMax)
    (leTrans_builtin isMax)
    (Size (enqueueAll (mkQueue (T := T) none isMax) xs))
    (entries (enqueueAll (mkQueue none isMax) xs))
    (by rw [length_entries]; exact Nat.le_of_eq rfl) hWE
  constructor
  · rw [hdk, hltP]
    exact hsorted
  · rw [hdk, hltP, hperm.length_eq, length_entries]
    exact hsize

/-- Claim C1: for every sequence of enqueues on a `New` (min-first) queue
followed by repeated `Dequeue`s, the dequeued values come out in
non-decreasing order of their stored priority, and on a `NewMax` (max-first)
queue in non-increasing order; the `Dequeue` results are exactly the drained
entries' values, each returned with the `true` flag, and all enqueued
elements are drained. -/
theorem C1_dequeue_priority_order (T : Type) [Inhabited T] (xs : List (T × Int)) :
    List.Pairwise (fun a b : T × Int => a.2 ≤ b.2)
      (drainEntries (Size (enqueueAll (New T) xs)) (enqueueAll (New T) xs)) ∧
    drainDequeue (Size (enqueueAll (New T) xs)) (enqueueAll (New T) xs)
      = (drainEntries (Size (enqueueAll (New T) xs))
          (enqueueAll (New T) xs)).map (fun e => (e.1, true)) ∧
    (drainEntries (Size (enqueueAll (New T) xs)) (enqueueAll (New T) xs)).length
      = xs.length ∧
    List.Pairwise (fun a b : T × Int => b.2 ≤ a.2)
      (drainEntries (Size (enqueueAll (NewMax T) xs))
        (enqueueAll (NewMax T) xs)) ∧
    drainDequeue (Size (enqueueAll (NewMax T) xs)) (enqueueAll (NewMax T) xs)
      = (drainEntries (Size (enqueueAll (NewMax T) xs))
          (enqueueAll (NewMax T) xs)).map (fun e => (e.1, true)) := by
  obtain ⟨hs1, hl1⟩ := drain_builtin_sorted (T := T) false xs
  obtain ⟨hs2, _⟩ := drain_builtin_sorted (T := T) true xs
  refine ⟨?_, drainDequeue_map _ _, hl1, ?_, drainDequeue_map _ _⟩
  · refine hs1.imp ?_
    intro a b h
    simp [ltB] at h
    omega
  · refine hs2.imp ?_
    intro a b h
    simp [ltB] at h
    omega

/-- Claim C2: after any operation sequence from any constructor, the heap
invariant holds: for every element with in-range children, neither child
outranks it under the active ordering (`Less`), provided the active ordering
is the strict part of a total preorder — which the built-in numeric ordering
is, and which the spec requires of custom comparators. -/
theorem C2_heap_invariant (T : Type) [Inhabited T] (cmp : Option (T → T → Int))
    (isMax : Bool) (hA : Asymm (ltB cmp isMax)) (hT : LeTrans (ltB cmp isMax))
    (ops : List (Op T)) :
    ∀ i j, IsChild i j → j < (runOps (mkQueue cmp isMax) ops).items.length →
      lessAt (runOps (mkQueue cmp isMax) ops) j i = false := by
  refine runOps_heapWf ops _ ?_ ?_ (mkQueue_stateOK _ _) (mkQueue_heapWf _ _)
  · rw [ltP_mkQueue]
    exact hA
  · rw [ltP_mkQueue]
    exact hT

/-- Witness for C2 at a concrete run mixing all five operations on a
min-first integer queue: at the final state, the left child of the root
does not outrank the root. -/
theorem C2_heap_invariant_witness :
    lessAt (runOps (mkQueue (T := Int) none false)
        [Op.enq 5 3, Op.enq 7 1, Op.enq 2 2, Op.upd 0 0, Op.deq,
         Op.rem 2, Op.clearAll, Op.enq 4 9, Op.enq 6 5, Op.enq 8 7])
      1 0 = false :=
  C2_heap_invariant Int none false (asymm_builtin false) (leTrans_builtin false)
    [Op.enq 5 3, Op.enq 7 1, Op.enq 2 2, Op.upd 0 0, Op.deq,
     Op.rem 2, Op.clearAll, Op.enq 4 9, Op.enq 6 5, Op.enq 8 7]
    0 1 (Or.inl rfl) (by decide)

/-- Claim C8: position tracking never drifts: after any operation sequence
from any constructor, the item stored at every array index `i` has its
`Index` field equal to `i`. -/
theorem C8_position_tracking (T : Type) [Inhabited T]
    (cmp : Option (T → T → Int)) (isMax : Bool) (ops : List (Op T)) :
    PosOK (runOps (mkQueue cmp isMax) ops) :=
  (runOps_stateOK ops _ (mkQueue_stateOK cmp isMax)).2.2
/-- Claim C3 counterexample: a handle consumed by `Clear` retains its old
in-range `Index` (here `0`).  After a later `Enqueue` makes index 0 live
again, `Remove` on the stale handle passes the bounds check and removes —
returning `(20, true)` — the *new* element, instead of the claimed
not-found signal. -/
theorem C3_counterexample :
    (Remove (Enqueue (Clear (Enqueue (New Int) 10 1).1) 20 2).1
      (Enqueue (New Int) 10 1).2).2 = (20, true) := rfl

/-- Claim C3 (amended): a handle consumed by `Dequeue` or `Remove` (its
`Index` set to `-1`, its item gone from the array) stays consumed across
every later operation sequence — enqueues included — and on it
`UpdatePriority` is an exact no-op while `Remove` returns the not-found
signal, leaving the state (hence the heap invariant) untouched.  A handle
consumed by `Clear` instead keeps its old non-negative `Index` and is
detected only while that index is out of bounds; once later enqueues cover
the index again, `Remove` can hit a different live element (see the
counterexample). -/
theorem C3_consumed_handles (T : Type) [Inhabited T] (pq : PQ T) (id : Nat)
    (p : Int) (ops : List (Op T)) (hS : StateOK pq) (hC : Consumed pq id) :
    Consumed (runOps pq ops) id ∧
    UpdatePriority (runOps pq ops) id p = runOps pq ops ∧
    Remove (runOps pq ops) id = (runOps pq ops, default, false) := by
  have hC2 := runOps_consumed ops pq id hS hC
  have hlt : ((runOps pq ops).arena.getD id default).index < 0 := by
    rw [hC2.1]
    decide
  exact ⟨hC2, UpdatePriority_stale (Or.inl hlt), Remove_stale (Or.inl hlt)⟩

/-- Witness for the amended C3: dequeue the only element, then enqueue a new
one; the old handle (id 0) is still detected by `Remove`. -/
theorem C3_consumed_handles_witness :
    (StateOK (Dequeue (Enqueue (New Int) 5 1).1).1 ∧
      Consumed (Dequeue (Enqueue (New Int) 5 1).1).1 0) ∧
    Remove (runOps (Dequeue (Enqueue (New Int) 5 1).1).1 [Op.enq 7 2]) 0
      = (runOps (Dequeue (Enqueue (New Int) 5 1).1).1 [Op.enq 7 2],
         default, false) :=
  ⟨⟨by decide, by decide⟩,
    (C3_consumed_handles Int (Dequeue (Enqueue (New Int) 5 1).1).1 0 3
      [Op.enq 7 2] (by decide) (by decide)).2.2⟩

/-- Claim C4 counterexample: after `Enqueue` then `Clear`, the size is 0 as
claimed, but the issued handle's `Index` is still `0`, not `-1`: `Clear`
never touches the items it drops. -/
theorem C4_counterexample :
    Size (Clear (Enqueue (New Int) 10 1).1) = 0 ∧
    ((Clear (Enqueue (New Int) 10 1).1).arena.getD
      (Enqueue (New Int) 10 1).2 default).index = 0 ∧
    ((Clear (Enqueue (New Int) 10 1).1).arena.getD
      (Enqueue (New Int) 10 1).2 default).index ≠ -1 := by
  exact ⟨rfl, rfl, by decide⟩

/-- Claim C4 (amended): `Clear` empties the array (size 0) but leaves the
arena — hence every handle's `Index` field — unchanged rather than setting
it to `-1`; because the queue is now empty every index is out of bounds, so
immediately after `Clear` every handle is treated as stale:
`UpdatePriority` is a no-op and `Remove` signals not-found. -/
theorem C4_clear_semantics (T : Type) [Inhabited T] (pq : PQ T) :
    Size (Clear pq) = 0 ∧
    (Clear pq).arena = pq.arena ∧
    (∀ id p, UpdatePriority (Clear pq) id p = Clear pq) ∧
    (∀ id, Remove (Clear pq) id = (Clear pq, default, false)) := by
  have h0 : (Clear pq).items.length = 0 := by
    rw [Clear_eq]
    rfl
  refine ⟨h0, by rw [Clear_eq], ?_, ?_⟩
  · intro id p
    refine UpdatePriority_stale ?_
    rw [h0]
    omega
  · intro id
    refine Remove_stale ?_
    rw [h0]
    omega

/-- Claim C5: on a handle whose `Index` is out of the current array bounds,
`UpdatePriority` returns silently with the whole state unchanged (its
signature carries no signal at all), while `Remove` returns the not-found
signal `(zero, false)` with the state unchanged — the two differ exactly in
the produced signal. -/
theorem C5_out_of_range_handle (T : Type) [Inhabited T] (pq : PQ T) (id : Nat)
    (p : Int)
    (h : (pq.arena.getD id default).index < 0 ∨
      (pq.items.length : Int) ≤ (pq.arena.getD id default).index) :
    UpdatePriority pq id p = pq ∧ Remove pq id = (pq, default, false) :=
  ⟨UpdatePriority_stale h, Remove_stale h⟩

/-- Witness for C5: the handle left by dequeuing a one-element queue has
`Index = -1`. -/
theorem C5_out_of_range_handle_witness :
    (((Dequeue (Enqueue (New Int) 5 1).1).1.arena.getD 0 default).index < 0 ∨
      ((Dequeue (Enqueue (New Int) 5 1).1).1.items.length : Int)
        ≤ ((Dequeue (Enqueue (New Int) 5 1).1).1.arena.getD 0 default).index) ∧
    UpdatePriority (Dequeue (Enqueue (New Int) 5 1).1).1 0 9
      = (Dequeue (Enqueue (New Int) 5 1).1).1 :=
  ⟨by decide,
    (C5_out_of_range_handle Int (Dequeue (Enqueue (New Int) 5 1).1).1 0 9
      (by decide)).1⟩

/-- Claim C6: on an empty queue, `Dequeue` and `Peek` both return the
explicit not-found signal `(zero, false)` instead of faulting, and the
state is unchanged (`Dequeue` returns the queue untouched; `Peek` does not
even take the state apart). -/
theorem C6_empty_queue (T : Type) [Inhabited T] (pq : PQ T)
    (h : pq.items.length = 0) :
    Dequeue pq = (pq, default, false) ∧ Peek pq = (default, false) :=
  ⟨Dequeue_empty h, Peek_empty h⟩

/-- Witness for C6 on the freshly constructed queue. -/
theorem C6_empty_queue_witness :
    (New Int).items.length = 0 ∧
    Dequeue (New Int) = (New Int, default, false) :=
  ⟨rfl, (C6_empty_queue Int (New Int) rfl).1⟩

/-- Claim C7: with a custom comparator, `Less` is decided exactly by the
three-way comparator on the stored values — negative outranks in ascending
mode, positive in descending mode; the stored priorities have no effect (a
state with the same comparator, mode, array and values but arbitrary
priorities compares identically), while the priority field remains stored
and settable through `UpdatePriority`. -/
theorem C7_comparator_ordering (T : Type) [Inhabited T] (pq pq2 : PQ T)
    (c : T → T → Int) (i j : Nat)
    (hc : pq.comparator = some c)
    (hi : i < pq.items.length) (hj : j < pq.items.length)
    (h2c : pq2.comparator = some c) (h2m : pq2.isMaxHeap = pq.isMaxHeap)
    (h2items : pq2.items = pq.items)
    (h2vals : ∀ q ∈ pq.items,
      (pq2.arena.getD q default).value = (pq.arena.getD q default).value) :
    lessAt pq i j
      = (if pq.isMaxHeap then decide (0 < c (valueAt pq i) (valueAt pq j))
         else decide (c (valueAt pq i) (valueAt pq j) < 0)) ∧
    lessAt pq2 i j = lessAt pq i j ∧
    (∀ id p, ¬((pq.arena.getD id default).index < 0 ∨
        (pq.items.length : Int) ≤ (pq.arena.getD id default).index) →
      id < pq.arena.length →
      ((UpdatePriority pq id p).arena.getD id default).priority = p ∧
      ((UpdatePriority pq id p).arena.getD id default).value
        = (pq.arena.getD id default).value) := by
  have hform : ∀ (P : PQ T), P.comparator = some c →
      ∀ (k l : Nat), k < P.items.length → l < P.items.length →
      lessAt P k l
        = (if P.isMaxHeap then decide (0 < c (valueAt P k) (valueAt P l))
           else decide (c (valueAt P k) (valueAt P l) < 0)) := by
    intro P hPc k l hk hl
    show ltB P.comparator P.isMaxHeap (getE (entries P) k) (getE (entries P) l)
      = _
    rw [hPc, getE_entries hk, getE_entries hl]
    rfl
  have hi2 : i < pq2.items.length := by rw [h2items]; exact hi
  have hj2 : j < pq2.items.length := by rw [h2items]; exact hj
  have hvi : valueAt pq2 i = valueAt pq i := by
    rw [valueAt, valueAt, h2items]
    exact h2vals _ (getE_mem hi)
  have hvj : valueAt pq2 j = valueAt pq j := by
    rw [valueAt, valueAt, h2items]
    exact h2vals _ (getE_mem hj)
  refine ⟨hform pq hc i j hi hj, ?_, ?_⟩
  · rw [hform pq hc i j hi hj, hform pq2 h2c i j hi2 hj2, h2m, hvi, hvj]
  · intro id p hlive hid
    obtain ⟨_, _, _, _, _, uid, _⟩ := UpdatePriority_live_facts pq id p hlive
    exact ⟨congrArg Prod.snd (uid hid), congrArg Prod.fst (uid hid)⟩

/-- Witness for C7: two two-element queues under the subtraction comparator
with identical values but different stored priorities. -/
theorem C7_comparator_ordering_witness :
    ((Enqueue (Enqueue (NewWithComparator cmpSub false) 3 99).1 5 1).1.comparator
        = some cmpSub) ∧
    lessAt (Enqueue (Enqueue (NewWithComparator cmpSub false) 3 99).1 5 1).1 0 1
      = lessAt (Enqueue (Enqueue (NewWithComparator cmpSub false) 3 99).1 5 1).1
          0 1 ∧
    lessAt (Enqueue (Enqueue (NewWithComparator cmpSub false) 3 7).1 5 2).1 0 1
      = lessAt (Enqueue (Enqueue (NewWithComparator cmpSub false) 3 99).1 5 1).1
          0 1 :=
  ⟨rfl, rfl,
    ((C7_comparator_ordering Int
      (Enqueue (Enqueue (NewWithComparator cmpSub false) 3 99).1 5 1).1
      (Enqueue (Enqueue (NewWithComparator cmpSub false) 3 7).1 5 2).1
      cmpSub 0 1 rfl (by decide) (by decide) rfl rfl rfl
      (by decide)).2).1⟩

/-- Claim C9: `Peek` on a non-empty queue returns the root element's value
with the `true` success flag.  `Peek` is embedded as a pure function of the
state (the Go method only takes the read lock and reads), so repeated calls
with no intervening mutation return the same value and cannot change the
size or contents. -/
theorem C9_peek_idempotent (T : Type) [Inhabited T] (pq : PQ T)
    (h : 1 ≤ pq.items.length) :
    Peek pq = ((pq.arena.getD (getE pq.items 0) default).value, true) ∧
    (Peek pq).1 = valueAt pq 0 := by
  refine ⟨Peek_nonempty h, ?_⟩
  rw [Peek_nonempty h]
  rfl

/-- Witness for C9 on a two-element queue whose root is `7`. -/
theorem C9_peek_idempotent_witness :
    1 ≤ (Enqueue (Enqueue (New Int) 9 5).1 7 1).1.items.length ∧
    Peek (Enqueue (Enqueue (New Int) 9 5).1 7 1).1 = (7, true) :=
  ⟨by decide,
    (C9_peek_idempotent Int (Enqueue (Enqueue (New Int) 9 5).1 7 1).1
      (by decide)).1⟩

/-- Claim C10: `UpdatePriority` on an in-bounds handle changes only that
handle's `Priority` field and the arrangement of the array (the ids are
permuted, with `Index` fields maintained): the size, the arena, the
multiset of stored values, and every other item's value and priority are
unchanged, and the handle keeps its value while its priority becomes `p`. -/
theorem C10_update_priority_frame (T : Type) [Inhabited T] (pq : PQ T)
    (id : Nat) (p : Int) (hid : id < pq.arena.length)
    (hlive : ¬((pq.arena.getD id default).index < 0 ∨
      (pq.items.length : Int) ≤ (pq.arena.getD id default).index)) :
    Size (UpdatePriority pq id p) = Size pq ∧
    List.Perm (UpdatePriority pq id p).items pq.items ∧
    (UpdatePriority pq id p).arena.length = pq.arena.length ∧
    (∀ q, q ≠ id →
      ((UpdatePriority pq id p).arena.getD q default).value
        = (pq.arena.getD q default).value ∧
      ((UpdatePriority pq id p).arena.getD q default).priority
        = (pq.arena.getD q default).priority) ∧
    ((UpdatePriority pq id p).arena.getD id default).value
      = (pq.arena.getD id default).value ∧
    ((UpdatePriority pq id p).arena.getD id default).priority = p ∧
    List.Perm (valuesOf (UpdatePriority pq id p)) (valuesOf pq) := by
  obtain ⟨uc, um, up, ul, ufr, uid, uout, us, _, _⟩ :=
    UpdatePriority_live_facts pq id p hlive
  have hq : ∀ q, q ≠ id →
      ((UpdatePriority pq id p).arena.getD q default).value
        = (pq.arena.getD q default).value ∧
      ((UpdatePriority pq id p).arena.getD q default).priority
        = (pq.arena.getD q default).priority := by
    intro q hqid
    have h2 := ufr q hqid
    exact ⟨congrArg Prod.fst h2, congrArg Prod.snd h2⟩
  have hv : ((UpdatePriority pq id p).arena.getD id default).value
      = (pq.arena.getD id default).value := congrArg Prod.fst (uid hid)
  have hp : ((UpdatePriority pq id p).arena.getD id default).priority = p :=
    congrArg Prod.snd (uid hid)
  refine ⟨up.length_eq, up, ul, hq, hv, hp, ?_⟩
  have hfun : ∀ q, ((UpdatePriority pq id p).arena.getD q default).value
      = (pq.arena.getD q default).value := by
    intro q
    by_cases hqid : q = id
    · rw [hqid]
      exact hv
    · exact (hq q hqid).1
  show List.Perm ((UpdatePriority pq id p).items.map _) (pq.items.map _)
  have hmc : ((UpdatePriority pq id p).items.map
        (fun q => ((UpdatePriority pq id p).arena.getD q default).value))
      = ((UpdatePriority pq id p).items.map
        (fun q => (pq.arena.getD q default).value)) :=
    List.map_congr_left (fun a _ => hfun a)
  rw [hmc]
  exact up.map _

/-- Witness for C10: update the live root handle of a three-element queue. -/
theorem C10_update_priority_frame_witness :
    0 < (Enqueue (Enqueue (Enqueue (New Int) 7 5).1 8 2).1 9 4).1.arena.length ∧
    ¬(((Enqueue (Enqueue (Enqueue (New Int) 7 5).1 8 2).1 9 4).1.arena.getD 0
        default).index < 0 ∨
      (((Enqueue (Enqueue (Enqueue (New Int) 7 5).1 8 2).1 9 4).1.items.length : Int)
        ≤ ((Enqueue (Enqueue (Enqueue (New Int) 7 5).1 8 2).1 9 4).1.arena.getD 0
            default).index)) ∧
    ((UpdatePriority (Enqueue (Enqueue (Enqueue (New Int) 7 5).1 8 2).1 9 4).1
        0 1).arena.getD 0 default).priority = 1 :=
  ⟨by decide, by decide,
    (C10_update_priority_frame Int
      (Enqueue (Enqueue (Enqueue (New Int) 7 5).1 8 2).1 9 4).1 0 1
      (by decide) (by decide)).2.2.2.2.2.1⟩

end Simulation

end PrioQueue
